import Mathlib

/-!
# Verification of the `knhx.js` tree core of lh3/jstreeview

This file shallowly embeds the New Hampshire (Newick/NHX) parser, serializer,
flattener, and topology-editing operations of `knhx.js` into Lean 4, and proves
or refutes the frozen specification claims about them.

Modelling conventions:

* Strings are handled as `List Char`, with absolute positions as `Nat`,
  mirroring the JavaScript index arithmetic (`charAt`, `substr`).
* JavaScript numbers are modelled as `Option DecQ`: `some a` is an
  ordinary number (an exact decimal `m / 10^e`) and `none` models `NaN`
  (which arises from `parseFloat` on an invalid literal).  `NaN` is
  absorbing for `+` and falsifies `>= 0`, exactly as in JavaScript.
  Binary floating point rounding is not modelled; values are exact.
* The pointer graph is modelled as an arena (`Store := List KNode`): nodes are
  addressed by their index, `parent` is an optional index and `child` an
  ordered list of indices, following the object graph of `kn_new_node`.
  JavaScript object identity (`p.child[0] == node`) becomes index equality.
* A JavaScript statement that would throw (`TypeError` from reading a
  property of `undefined`/`null`, `SyntaxError` from `new RegExp` on a
  malformed pattern, a negative array-length assignment) is modelled by an
  `Except` error result.
-/

/-- An exact decimal number `m / 10 ^ e`, the value domain of every branch
length the code ever computes (`parseFloat` of a decimal literal, sums, and
halving, which is multiplication by `5/10`).  Values are kept normalized
(`e = 0` or `m` not divisible by 10), so propositional equality is value
equality.  This replaces the host's binary doubles by exact decimals; the
difference (binary rounding) is invisible to every claim proved here. -/
structure DecQ where
  m : Int
  e : Nat
deriving Repr, DecidableEq

/-- Strip factors of ten: `decNormGo m e` divides `m` by 10 while `e > 0`
and `10 ∣ m`. -/
def decNormGo : Int → Nat → Int × Nat
  | m, 0 => (m, 0)
  | m, e + 1 => if m % 10 = 0 then decNormGo (m / 10) e else (m, e + 1)

/-- Normalized decimal from mantissa and exponent. -/
def decNorm (m : Int) (e : Nat) : DecQ :=
  ⟨(decNormGo m e).1, (decNormGo m e).2⟩

/-- `10 ^ n` as an integer (structurally recursive, kernel-reducible). -/
def tenPow : Nat → Int
  | 0 => 1
  | n + 1 => 10 * tenPow n

/-- Exact decimal addition with renormalization. -/
def decAdd (a b : DecQ) : DecQ :=
  decNorm (a.m * tenPow (max a.e b.e - a.e) + b.m * tenPow (max a.e b.e - b.e)) (max a.e b.e)

/-- JavaScript number: `some a` is a (decimal-valued) number, `none` is NaN. -/
abbrev JsNum := Option DecQ

/-- JavaScript `+` on numbers: NaN is absorbing. -/
def jsAdd : JsNum → JsNum → JsNum
  | some a, some b => some (decAdd a b)
  | _, _ => none

/-- JavaScript `x >= 0.0`: false for NaN. -/
def jsGe0 : JsNum → Bool
  | some a => decide (0 ≤ a.m)
  | none => false

/-- JavaScript `x / 2.0`: `m/10^e / 2 = 5m/10^(e+1)`. -/
def jsHalf : JsNum → JsNum
  | some a => some (decNorm (a.m * 5) (a.e + 1))
  | none => none

/-- The branch-length sentinel `-1.0` of `kn_new_node`. -/
def jsNeg1 : JsNum := some ⟨-1, 0⟩

/-- A tree node, mirroring `kn_new_node()`:
`{parent:null, child:[], name:"", meta:"", d:-1.0, hl:false, hidden:false}`.
`parent`/`child` hold arena indices. -/
structure KNode where
  parent : Option Nat
  child : List Nat
  name : List Char
  meta : List Char
  d : JsNum
  hl : Bool
  hidden : Bool
deriving Repr, DecidableEq

/-- `kn_new_node()`: the fresh node record. -/
def kn_new_node : KNode :=
  ⟨none, [], [], [], jsNeg1, false, false⟩

/-- The arena of node records; `tree.node[i]` is index `i`. -/
abbrev Store := List KNode

/-- Arena read (in-bounds reads are the only ones the theorems rely on). -/
def getN (st : Store) (i : Nat) : KNode :=
  st.getD i kn_new_node

/-- Arena write at an existing index. -/
def setN (st : Store) (i : Nat) (v : KNode) : Store :=
  st.set i v

/-- Printable character in the sense of the parser's whitespace test:
`'!' <= c && c <= '~'`.  All other characters are skipped between tokens. -/
def printable (c : Char) : Bool :=
  '!' ≤ c && c ≤ '~'

/-- Characters accepted by the branch-length scanner in `kn_add_node`:
digits, `e`, `E`, `+`, `-`, `.`. -/
def numChar (c : Char) : Bool :=
  ('0' ≤ c && c ≤ '9') || c = 'e' || c = 'E' || c = '+' || c = '-' || c = '.'

/-- JavaScript `str.substr(b, n)` on a char list: `n` chars from position `b`. -/
def jsSubstr (s : List Char) (b n : Nat) : List Char :=
  (s.drop b).take n

/-- Offset of the first `']'` in a suffix (suffix length if there is none):
the scan `do ++i; while (i < len && str.charAt(i) != ']')` lands at
`i + metaOff (s.drop i)`. -/
def metaOff : List Char → Nat
  | [] => 0
  | c :: r => if c = ']' then 0 else metaOff r + 1

/-- The metadata scan position: first index `≥ i` holding `']'`, or the
length of `s` (for `i ≤ s.length`, which is the only way it is called). -/
def scanMeta (s : List Char) (i : Nat) : Nat :=
  i + metaOff (s.drop i)

/-- Offset of the first non-`numChar` in a suffix. -/
def numOff : List Char → Nat
  | [] => 0
  | c :: r => if numChar c then numOff r + 1 else 0

/-- The branch-length scan position: first index `≥ i` whose character is
not a `numChar`, or the length. -/
def scanNum (s : List Char) (i : Nat) : Nat :=
  i + numOff (s.drop i)

theorem metaOff_le (l : List Char) : metaOff l ≤ l.length := by
  induction l with
  | nil => exact Nat.le_refl _
  | cons c r ih =>
      unfold metaOff
      split
      · exact Nat.zero_le _
      · simpa using ih

theorem numOff_le (l : List Char) : numOff l ≤ l.length := by
  induction l with
  | nil => exact Nat.le_refl _
  | cons c r ih =>
      unfold numOff
      split
      · simpa using ih
      · exact Nat.zero_le _

theorem scanMeta_ge (s : List Char) (i : Nat) : i ≤ scanMeta s i := by
  unfold scanMeta
  omega

theorem scanNum_ge (s : List Char) (i : Nat) : i ≤ scanNum s i := by
  unfold scanNum
  omega

theorem scanMeta_le (s : List Char) (i : Nat) (hi : i ≤ s.length) :
    scanMeta s i ≤ s.length := by
  have h := metaOff_le (s.drop i)
  simp only [List.length_drop] at h
  unfold scanMeta
  omega

theorem scanNum_le (s : List Char) (i : Nat) (hi : i ≤ s.length) :
    scanNum s i ≤ s.length := by
  have h := numOff_le (s.drop i)
  simp only [List.length_drop] at h
  unfold scanNum
  omega

/-- Digit run value: `digitsVal "123" = 123`. -/
def digitsVal (l : List Char) : Nat :=
  l.foldl (fun acc c => 10 * acc + (c.toNat - 48)) 0

/-- Split `(negative?, rest)` for an optional leading `+`/`-`. -/
def readSign (s : List Char) : Bool × List Char :=
  match s with
  | [] => (false, [])
  | c :: r => if c = '-' then (true, r) else if c = '+' then (false, r) else (false, c :: r)

/-- Decimal digit test. -/
def isDigit (c : Char) : Bool := '0' ≤ c && c ≤ '9'

/-- Model of the host `parseFloat` on the character set the scanner admits:
longest prefix of the form `[+-]? (digits ['.' digits*] | '.' digits)
[(e|E) [+-]? digits]`; `none` (NaN) when no digit is found.  An incomplete
exponent suffix (for example `"1e+"`) is not consumed, as in ECMAScript. -/
def jsParseFloat (s : List Char) : JsNum :=
  let (neg, s1) := readSign s
  let ip := s1.takeWhile isDigit
  let s2 := s1.dropWhile isDigit
  let fp := match s2 with
    | '.' :: r => r.takeWhile isDigit
    | _ => []
  let s3 := match s2 with
    | '.' :: r => r.dropWhile isDigit
    | _ => s2
  if ip.isEmpty && fp.isEmpty then none
  else
    let m0 : Int := Int.ofNat (digitsVal ip * 10 ^ fp.length + digitsVal fp)
    let m1 : Int := if neg then -m0 else m0
    let ex : Int :=
      match s3 with
      | 'e' :: r | 'E' :: r =>
        let (eneg, r1) := readSign r
        let ed := r1.takeWhile isDigit
        if ed.isEmpty then 0
        else if eneg then -(Int.ofNat (digitsVal ed)) else Int.ofNat (digitsVal ed)
      | _ => 0
    if 0 ≤ ex then some (decNorm (m1 * tenPow ex.toNat) fp.length)
    else some (decNorm m1 (fp.length + (-ex).toNat))

/-- State of the token loop of `kn_add_node`: the running position `i`,
the `end` marker (`0` means "not yet set", as in the source), and the
`meta`/`d` fields of the node under construction, plus the error bitmask. -/
structure AddState where
  i : Nat
  e : Nat
  meta : List Char
  d : JsNum
  error : Nat
deriving Repr, DecidableEq

/-- `if (end == 0) end = i;` — the `end` marker update of `kn_add_node`. -/
def updE (e i : Nat) : Nat :=
  if e = 0 then i else e

/-- One-step body and fuel recursion for the token loop of `kn_add_node`:
`for (i = l; i < len && str[i] != ',' && str[i] != ')'; ++i) ...`
with the `'['` metadata branch, the `':'` branch-length branch, and the
(dead, because `c < '!' && c > '~'` is unsatisfiable) whitespace branch.
Every iteration advances `i`, so `s.length + 1` fuel always suffices; the
fuel only makes the recursion structural. -/
def addGo (s : List Char) : Nat → AddState → AddState
  | 0, st => st
  | fuel + 1, st =>
    if h : st.i < s.length then
      if s[st.i] = ',' ∨ s[st.i] = ')' then st
      else if s[st.i] = '[' then
        if scanMeta s (st.i + 1) = s.length then
          { st with i := scanMeta s (st.i + 1), e := updE st.e st.i, error := st.error ||| 4 }
        else
          addGo s fuel { st with i := scanMeta s (st.i + 1) + 1, e := updE st.e st.i, meta := jsSubstr s st.i (scanMeta s (st.i + 1) - st.i + 1) }
      else if s[st.i] = ':' then
        addGo s fuel { st with i := scanNum s (st.i + 1), e := updE st.e st.i, d := jsParseFloat (jsSubstr s (st.i + 1) (scanNum s (st.i + 1) - st.i - 1)) }
      else
        addGo s fuel { st with i := st.i + 1 }
    else st

/-- The token loop with its canonical fuel. -/
def addLoop (s : List Char) (st : AddState) : AddState :=
  addGo s (s.length + 1) st

theorem addGo_ge (s : List Char) (fuel : Nat) (st : AddState) :
    st.i ≤ (addGo s fuel st).i := by
  induction fuel generalizing st with
  | zero => exact Nat.le_refl _
  | succ fuel ih =>
      rw [addGo]
      split
      · next h =>
          split
          · exact Nat.le_refl _
          · split
            · split
              · have := scanMeta_ge s (st.i + 1)
                simp only []
                omega
              · refine Nat.le_trans ?_ (ih _)
                have := scanMeta_ge s (st.i + 1)
                simp only []
                omega
            · split
              · refine Nat.le_trans ?_ (ih _)
                have := scanNum_ge s (st.i + 1)
                simp only []
                omega
              · refine Nat.le_trans ?_ (ih _)
                simp only []
                omega
      · exact Nat.le_refl _

theorem addGo_le (s : List Char) (fuel : Nat) (st : AddState) (hi : st.i ≤ s.length) :
    (addGo s fuel st).i ≤ s.length := by
  induction fuel generalizing st with
  | zero => exact hi
  | succ fuel ih =>
      rw [addGo]
      split
      · next h =>
          split
          · exact hi
          · split
            · split
              · next hj =>
                  simp only [hj]
                  exact Nat.le_refl _
              · next hj =>
                  refine ih _ ?_
                  have := scanMeta_le s (st.i + 1) h
                  simp only []
                  omega
            · split
              · exact ih _ (scanNum_le s (st.i + 1) h)
              · exact ih _ h
      · exact hi

/-- Enough fuel makes `addGo` fuel-independent: each step advances `st.i`. -/
theorem addGo_congr (s : List Char) (f1 f2 : Nat) (st : AddState)
    (h1 : s.length - st.i < f1) (h2 : s.length - st.i < f2) :
    addGo s f1 st = addGo s f2 st := by
  induction f1 generalizing st f2 with
  | zero => omega
  | succ f1 ih =>
      match f2, h2 with
      | f2 + 1, h2 =>
        rw [addGo, addGo]
        split
        · next h =>
            split
            · rfl
            · split
              · split
                · rfl
                · refine ih _ _ ?_ ?_
                  all_goals
                    have := scanMeta_ge s (st.i + 1)
                    simp only []
                    omega
              · split
                · refine ih _ _ ?_ ?_
                  all_goals
                    have := scanNum_ge s (st.i + 1)
                    simp only []
                    omega
                · refine ih _ _ ?_ ?_
                  all_goals
                    simp only []
                    omega
        · rfl

/-- Unfolding the canonical-fuel loop once. -/
theorem addLoop_eq (s : List Char) (st : AddState) (hi : st.i ≤ s.length) :
    addLoop s st = addGo s (s.length - st.i + 1) st :=
  addGo_congr s (s.length + 1) (s.length - st.i + 1) st (by omega) (by omega)

theorem addLoop_ge (s : List Char) (st : AddState) : st.i ≤ (addLoop s st).i :=
  addGo_ge s (s.length + 1) st

theorem addLoop_le (s : List Char) (st : AddState) (hi : st.i ≤ s.length) :
    (addLoop s st).i ≤ s.length :=
  addGo_le s (s.length + 1) st hi


/-- `kn_add_node(str, l, tree, x)`: scans one token starting at `l`, returns
the fresh node, the updated error bitmask, and the stop position `i`.
The unused parameter `x` of the source is dropped. -/
def kn_add_node (s : List Char) (l : Nat) (error : Nat) : KNode × Nat × Nat :=
  let st := addLoop s ⟨l, 0, [], jsNeg1, error⟩
  let e := updE st.e st.i
  let name := if e > l then jsSubstr s l (e - l) else []
  (⟨none, [], name, st.meta, st.d, false, false⟩, st.error, st.i)

theorem kn_add_node_ge (s : List Char) (l : Nat) (error : Nat) :
    l ≤ (kn_add_node s l error).2.2 :=
  addLoop_ge s ⟨l, 0, [], jsNeg1, error⟩

theorem kn_add_node_le (s : List Char) (l : Nat) (error : Nat) (hl : l ≤ s.length) :
    (kn_add_node s l error).2.2 ≤ s.length :=
  addLoop_le s ⟨l, 0, [], jsNeg1, error⟩ hl

/-- A token whose first character is not `,` or `)` is scanned at least one
character forward. -/
theorem kn_add_node_gt (s : List Char) (l : Nat) (error : Nat)
    (h : l < s.length) (hc : ¬(s[l] = ',' ∨ s[l] = ')')) :
    l + 1 ≤ (kn_add_node s l error).2.2 := by
  unfold kn_add_node
  simp only []
  unfold addLoop
  rw [addGo]
  simp only [dif_pos h, if_neg hc]
  split
  · split
    · next hj =>
        simp only [hj]
        omega
    · refine Nat.le_trans ?_ (addGo_ge s _ _)
      simp only []
      have := scanMeta_ge s (l + 1)
      omega
  · split
    · refine Nat.le_trans ?_ (addGo_ge s _ _)
      simp only []
      have := scanNum_ge s (l + 1)
      omega
    · exact Nat.le_trans (Nat.le_refl _) (addGo_ge s _ { i := l + 1, e := 0, meta := [], d := jsNeg1, error := error })

/-- State of the main loop of `kn_parse`: the node arena being built (which
is also the finishing-order node list `tree.node`), the marker stack
(`-1` is the `'('` boundary marker, other entries are node indices, head is
the stack top), the error bitmask, the tip counter, and the position at
which the scan stopped. -/
structure PState where
  nodes : Store
  stack : List Int
  error : Nat
  n_tips : Nat
  pos : Nat
deriving Repr, DecidableEq

/-- Set `parent := some x` on every index in `cs`. -/
def setParents (st : Store) (x : Nat) (cs : List Nat) : Store :=
  cs.foldl (fun σ c => setN σ c { getN σ c with parent := some x }) st

/-- The `for (var l = 0; l < str.length;)` loop of `kn_parse`, one fuel per
iteration (every iteration advances `l`, so `s.length + 1` fuel always
suffices): the leading whitespace test (`c < '!' || c > '~'` skips one
character), the dispatch on `','`, `'('`, `')'` and a leaf token, and the
`break` on an unmatched `')'` (error bit 0x1). -/
def parseGo (s : List Char) : Nat → Nat → PState → PState
  | 0, l, ps => { ps with pos := l }
  | fuel + 1, l, ps =>
    if h : l < s.length then
      if ¬ printable (s[l]) then parseGo s fuel (l + 1) ps
      else if s[l] = ',' then parseGo s fuel (l + 1) ps
      else if s[l] = '(' then
        parseGo s fuel (l + 1) { ps with stack := (-1) :: ps.stack }
      else if s[l] = ')' then
        match ps.stack.dropWhile (fun v => 0 ≤ v) with
        | [] => { ps with error := ps.error ||| 1, pos := l }
        | _ :: rest =>
          let x := ps.nodes.length
          let r := kn_add_node s (l + 1) ps.error
          let childIdx := ((ps.stack.takeWhile (fun v => 0 ≤ v)).map Int.toNat).reverse
          let nodes' := setParents (ps.nodes ++ [{ r.1 with child := childIdx }]) x childIdx
          parseGo s fuel r.2.2 { nodes := nodes', stack := (x : Int) :: rest, error := r.2.1, n_tips := ps.n_tips, pos := r.2.2 }
      else
        let r := kn_add_node s l ps.error
        parseGo s fuel r.2.2 { nodes := ps.nodes ++ [r.1], stack := (ps.nodes.length : Int) :: ps.stack, error := r.2.1, n_tips := ps.n_tips + 1, pos := r.2.2 }
    else { ps with pos := l }

/-- The main loop with its canonical fuel. -/
def parseLoop (s : List Char) (l : Nat) (ps : PState) : PState :=
  parseGo s (s.length + 1) l ps

/-- The parse result, `class Tree` of the source: the finishing-order node
arena, the error bitmask and the tip count.  `tree.root` is the last node. -/
structure KTreeR where
  node : Store
  error : Nat
  n_tips : Nat
deriving Repr, DecidableEq

/-- `kn_parse(str)`: run the main loop from position 0 on an empty state,
then set error bit 0x2 if more than one entry is left on the stack. -/
def kn_parseAux (s : List Char) : PState :=
  let ps := parseLoop s 0 ⟨[], [], 0, 0, 0⟩
  if ps.stack.length > 1 then { ps with error := ps.error ||| 2 } else ps

/-- `kn_parse` as seen by callers. -/
def kn_parse (s : List Char) : KTreeR :=
  let ps := kn_parseAux s
  ⟨ps.nodes, ps.error, ps.n_tips⟩

/-- Index of the root (`tree.node[tree.node.length-1]`); meaningless when no
node was produced (in the source the root is then `undefined`). -/
def rootIdx (t : KTreeR) : Nat :=
  t.node.length - 1

/-- Digit characters of a natural number, most significant first; the fuel
(one per decimal digit, `n + 1` always suffices) makes the recursion
structural. -/
def natDigitsGo : Nat → Nat → List Char
  | 0, _ => []
  | fuel + 1, n =>
    if n < 10 then [Char.ofNat (48 + n)]
    else natDigitsGo fuel (n / 10) ++ [Char.ofNat (48 + n % 10)]

/-- Digit characters of a natural number, most significant first. -/
def natDigits (n : Nat) : List Char :=
  natDigitsGo (n + 1) n

/-- Model of the host number-to-string conversion used by `":" + p.d` for
the decimal values the tree operations produce: minimal-length exact
decimal notation (`5`, `0.5`, `2.25`, a leading `-` for negatives).  The
host switches to exponent notation for very large/small magnitudes and
prints binary doubles; neither matters for the round-trip value equalities
proved here, since the parser model reads this notation back exactly. -/
def printNum (q : DecQ) : List Char :=
  let sign : List Char := if q.m < 0 then ['-'] else []
  let n := q.m.natAbs
  if q.e = 0 then sign ++ natDigits n
  else
    let ds := natDigits n
    let ds := List.replicate (q.e + 1 - ds.length) '0' ++ ds
    sign ++ ds.take (ds.length - q.e) ++ '.' :: ds.drop (ds.length - q.e)

/-- Association-list lookup with default, for the per-node `depth` field. -/
def lookupD (m : List (Nat × Nat)) (i : Nat) (dflt : Nat) : Nat :=
  match m.find? (fun p => p.1 = i) with
  | some p => p.2
  | none => dflt

/-- The depth pass of `kn_write_nh`:
`node[last].depth = 0; for (i = last-1; i >= 0; --i) p.depth = p.parent.depth + 1`.
The map associates node index to depth.  A missing parent (which on a
finishing-order list can only be the final root) contributes depth
`lookup failure + 1` from default 0; in the source this case would read
`undefined.depth` and only arises on inputs no claim quantifies over. -/
def calcDepths (store : Store) (nodes : List Nat) : List (Nat × Nat) :=
  match nodes.reverse with
  | [] => []
  | root :: rest =>
    rest.foldl
      (fun acc i =>
        let pd := match (getN store i).parent with
          | some p => lookupD acc p 0
          | none => 0
        (i, pd + 1) :: acc)
      [(root, 0)]

/-- The token text of one node in `kn_write_nh`:
`if (p.name) str += p.name; if (p.d >= 0) str += ":" + p.d; if (p.meta) str += p.meta;`. -/
def writeTok (n : KNode) : List Char :=
  (if n.name ≠ [] then n.name else []) ++
  (match n.d with
   | some v => if 0 ≤ v.m then ':' :: printNum v else []
   | none => []) ++
  (if n.meta ≠ [] then n.meta else [])

/-- The output loop of `kn_write_nh`: walk the node list tracking
`cur_depth` and `is_first`; emit `k` `'('` on a depth increase of `k`,
`"\n)"` on a decrease, `",\n"` otherwise, then the node token; terminate
with `"\n"`. -/
def writeFold (store : Store) (depths : List (Nat × Nat)) : List Nat → Int → Bool → List Char
  | [], _, _ => ['\n']
  | i :: rest, cur, first =>
    let dep : Int := (lookupD depths i 0 : Nat)
    let nb := dep - cur
    let pre : List Char :=
      if 0 < nb then
        (if first then [] else [',', '\n']) ++ List.replicate nb.toNat '('
      else if nb < 0 then ['\n', ')']
      else [',', '\n']
    pre ++ writeTok (getN store i) ++
      writeFold store depths rest dep (if 0 < nb then false else first)

/-- `kn_write_nh(tree)`: compute depths, then emit the text. -/
def kn_write_nh (store : Store) (nodes : List Nat) : List Char :=
  writeFold store (calcDepths store nodes) nodes 0 true

/-- JavaScript runtime failures the editing/search code can hit: reading a
property of `undefined`/`null` (`TypeError`), assigning a negative array
length (`RangeError`), `new RegExp` on a malformed pattern (`SyntaxError`);
`fuelOut` models non-termination of an unbounded parent walk on a graph
with a parent cycle (impossible on a well-formed tree). -/
inductive JsErr where
  | typeError
  | rangeError
  | syntaxError
  | fuelOut
deriving Repr, DecidableEq

instance decEqExcept {ε α : Type} [DecidableEq ε] [DecidableEq α] : DecidableEq (Except ε α)
  | .error a, .error b =>
    if h : a = b then .isTrue (by rw [h]) else .isFalse (fun hx => by cases hx; exact h rfl)
  | .error _, .ok _ => .isFalse (fun hx => by cases hx)
  | .ok _, .error _ => .isFalse (fun hx => by cases hx)
  | .ok a, .ok b =>
    if h : a = b then .isTrue (by rw [h]) else .isFalse (fun hx => by cases hx; exact h rfl)

/-- JavaScript array element assignment `arr[i] = v`: in-bounds writes set,
`i == arr.length` appends, larger `i` pads (the source only ever pads on
inputs that are not well-formed trees). -/
def jsSetIdx (l : List Nat) (i : Nat) (v : Nat) : List Nat :=
  if i < l.length then l.set i v
  else l ++ List.replicate (i - l.length) 0 ++ [v]

/-- JavaScript array length assignment `arr.length = n` (grow slots are
`undefined`; modelled as `0`, and every grown slot is overwritten before
being read by the code below). -/
def jsSetLength (l : List Nat) (n : Nat) : List Nat :=
  if n ≤ l.length then l.take n else l ++ List.replicate (n - l.length) 0

/-- The iterative flattener `kn_expand_node(root)`: an explicit stack of
`{p, i}` frames (head is the stack top), the inner `while` descending into
the next unvisited child of a non-collapsed node, then a pop that appends
the finished node.  `fuel` bounds the number of loop steps; `none` means
the fuel ran out (the source loop would still be running). -/
def expandRun (store : Store) : Nat → List (Nat × Nat) → List Nat → Option (List Nat)
  | 0, _, _ => none
  | _ + 1, [], _ => none
  | fuel + 1, (p, i) :: rest, acc =>
    let nd := getN store p
    if i ≠ nd.child.length ∧ ¬ nd.hidden then
      expandRun store fuel ((nd.child.getD i 0, 0) :: (p, i) :: rest) acc
    else
      match rest with
      | [] => some (acc ++ [p])
      | (q, j) :: r => expandRun store fuel ((q, j + 1) :: r) (acc ++ [p])

/-- `kn_expand_node(root)` with an explicit step budget. -/
def kn_expand_node (fuel : Nat) (store : Store) (root : Nat) : Option (List Nat) :=
  expandRun store fuel [(root, 0)] []

mutual

/-- Structural well-formedness of an ECMAScript regular-expression pattern,
modelling the host `new RegExp` constructor's syntax check for the
constructs that matter here: balanced groups, terminated character classes,
no trailing backslash.  (Quantifier-position errors of the host are not
modelled; the claims only need that an unbalanced pattern is rejected.) -/
def regexChk : List Char → Nat → Bool
  | [], d => d = 0
  | '\\' :: [], _ => false
  | '\\' :: _ :: r, d => regexChk r d
  | '[' :: r, d => classChk r d
  | '(' :: r, d => regexChk r (d + 1)
  | ')' :: r, d => match d with
    | 0 => false
    | d' + 1 => regexChk r d'
  | _ :: r, d => regexChk r d

/-- Character-class scan: consume up to the closing `]`. -/
def classChk : List Char → Nat → Bool
  | [], _ => false
  | '\\' :: [], _ => false
  | '\\' :: _ :: r, d => classChk r d
  | ']' :: r, d => regexChk r d
  | _ :: r, d => classChk r d

end

/-- Pattern validity: whether `new RegExp(pattern, 'i')` succeeds. -/
def regexValid (p : List Char) : Bool :=
  regexChk p 0

/-- The highlight loop of `kn_search_leaf` with a live regex:
`if (p.child.length == 0) p.hl = re != null && re.test(p.name) ? true : false`.
The matcher itself (`re.test`) is a host primitive and is passed in as a
parameter; only its boolean verdict matters to the code. -/
def hlLoop (test : List Char → List Char → Bool) (pat : List Char) (store : Store) : Store :=
  store.map (fun n => if n.child.length = 0 then { n with hl := test pat n.name } else n)

/-- The same loop when `re` is `null`: every leaf highlight is cleared. -/
def clearLoop (store : Store) : Store :=
  store.map (fun n => if n.child.length = 0 then { n with hl := false } else n)

/-- `kn_search_leaf(tree, pattern)`.  For a non-empty pattern the source runs
`re = new RegExp(pattern, 'i')`, which throws `SyntaxError` on a malformed
pattern — so the subsequent `if (re == null) alert(...)` branch is
unreachable and the loop is never entered.  `none`/empty pattern leaves
`re` null and the loop clears all leaf highlights. -/
def kn_search_leaf (test : List Char → List Char → Bool) (store : Store)
    (pattern : Option (List Char)) : Except JsErr Store :=
  match pattern with
  | none => .ok (clearLoop store)
  | some pat =>
    if pat = [] then .ok (clearLoop store)
    else if regexValid pat then .ok (hlLoop test pat store)
    else .error .syntaxError

/-- Anchoring step shared by `kn_remove_node` and `kn_move_node`:
`var z = kn_new_node(); z.child.push(root); root.parent = z;`.
The synthetic node is appended at index `store.length`. -/
def anchor (st : Store) (rootI : Nat) : Store :=
  setN (st ++ [{ kn_new_node with child := [rootI] }]) rootI
    { getN (st ++ [{ kn_new_node with child := [rootI] }]) rootI with parent := some st.length }

/-- Un-anchoring step: `root = z.child[0]; root.parent = null;` returning
the store and the new root index. -/
def unanchor (st : Store) (zI : Nat) : Store × Nat :=
  let root2 := (getN st zI).child.getD 0 0
  (setN st root2 { getN st root2 with parent := none }, root2)

/-- The two-child splice of `kn_remove_node`:
`q.d += p.d; q.parent = r; for (i...) if (r.child[i] == p) break; r.child[i] = q; p.parent = null;`. -/
def spliceOut (st : Store) (pI qI rI : Nat) : Store :=
  let pn := getN st pI
  let qn := getN st qI
  let st3 := setN st qI { qn with d := jsAdd qn.d pn.d, parent := some rI }
  let rn := getN st3 rI
  let st4 := setN st3 rI { rn with child := jsSetIdx rn.child (rn.child.findIdx (· == pI)) qI }
  setN st4 pI { getN st4 pI with parent := none }

/-- `kn_remove_node(tree, node)`: anchor the root under a synthetic node `z`,
then either splice out a two-child parent (`q.d += p.d`, reparent the
sibling to the grandparent) or — in the source — run the removal loop that
reads `p.node[k]`, a property no node has, and therefore throw `TypeError`
(`RangeError` for the impossible zero-child parent, from
`--p.child.length`).  Returns the new root index, `none` when `node` is the
root (the source returns `undefined`). -/
def kn_remove_node (store : Store) (nodes : List Nat) (node : Nat) :
    Except JsErr (Store × Option Nat) :=
  match nodes.getLast? with
  | none => .error .typeError
  | some rootI =>
    if node = rootI then .ok (store, none)
    else
      let st2 := anchor store rootI
      match (getN st2 node).parent with
      | none => .error .typeError
      | some pI =>
        let pn := getN st2 pI
        if pn.child.length = 2 then
          let i : Nat := if pn.child.getD 0 0 = node then 0 else 1
          let qI := pn.child.getD (1 - i) 0
          match pn.parent with
          | none => .error .typeError
          | some rI =>
            let res := unanchor (spliceOut st2 pI qI rI) store.length
            .ok (res.1, some res.2)
        else
          if pn.child.isEmpty then .error .rangeError else .error .typeError

/-- The ancestor walk of `kn_move_node`:
`for (var r = q; r.parent; r = r.parent) if (r == p) return null;`
`.ok true` means `p` was found (the move is rejected). -/
def walkChain (store : Store) (p : Nat) : Nat → Nat → Except JsErr Bool
  | 0, _ => .error .fuelOut
  | fuel + 1, r =>
    match (getN store r).parent with
    | none => .ok false
    | some rp => if r = p then .ok true else walkChain store p fuel rp

/-- `var s = kn_new_node(); s.parent = r; r.child[i] = s;` — append the new
splice node and put it in `q`'s former slot (`i` is the index of `q` in
`r.child`). -/
def spliceIn (st3 : Store) (q rI : Nat) : Store :=
  let k := (getN st3 rI).child.findIdx (· == q)
  let sI := st3.length
  let st4 := st3 ++ [{ kn_new_node with parent := some rI }]
  setN st4 rI { getN st4 rI with child := jsSetIdx (getN st4 rI).child k sI }

/-- `if (q.d >= 0.0) { s.d = q.d / 2.0; q.d /= 2.0; }`. -/
def halveBranch (st5 : Store) (q sI : Nat) : Store :=
  let qd := (getN st5 q).d
  if jsGe0 qd then
    let sta := setN st5 sI { getN st5 sI with d := jsHalf qd }
    setN sta q { getN sta q with d := jsHalf (getN sta q).d }
  else st5

/-- `s.child.push(p); p.parent = s; s.child.push(q); q.parent = s;`. -/
def adoptPQ (st6 : Store) (p q sI : Nat) : Store :=
  let st7 := setN st6 sI { getN st6 sI with child := (getN st6 sI).child ++ [p] }
  let st8 := setN st7 p { getN st7 p with parent := some sI }
  let st9 := setN st8 sI { getN st8 sI with child := (getN st8 sI).child ++ [q] }
  setN st9 q { getN st9 q with parent := some sI }

/-- The re-attachment phase of `kn_move_node` after the prune: re-anchor the
new root under a fresh `z`, create the splice node `s` in `q`'s slot, halve
`q.d` when specified, and give `s` the children `[p, q]`. -/
def moveAttach (st1 : Store) (p q root1 : Nat) : Except JsErr (Store × Option Nat) :=
  let st3 := anchor st1 root1
  match (getN st3 q).parent with
  | none => .error .typeError
  | some rI =>
    let res :=
      unanchor (adoptPQ (halveBranch (spliceIn st3 q rI) q st3.length) p q st3.length) st1.length
    .ok (res.1, some res.2)

/-- `kn_move_node(tree, p, q)`: reject if `p` is the root or found on `q`'s
parent chain; otherwise prune `p` and re-attach it next to `q`. -/
def kn_move_node (store : Store) (nodes : List Nat) (p q : Nat) :
    Except JsErr (Store × Option Nat) :=
  match nodes.getLast? with
  | none => .error .typeError
  | some rootI =>
    if p = rootI then .ok (store, none)
    else
      match walkChain store p (store.length + 1) q with
      | .error e => .error e
      | .ok true => .ok (store, none)
      | .ok false =>
        match kn_remove_node store nodes p with
        | .error e => .error e
        | .ok (_, none) => .error .typeError
        | .ok (st1, some root1) => moveAttach st1 p q root1

/-- The tail-shift loop of `kn_multifurcate`:
`for (i = 0; i < tmp; ++i) par.child[len-1-i] = par.child[old-1-i];`,
with the remaining iteration count as the structural argument. -/
def shiftGo (oldLen newLen : Nat) : Nat → Nat → List Nat → List Nat
  | 0, _, arr => arr
  | k + 1, i, arr => shiftGo oldLen newLen k (i + 1) (jsSetIdx arr (newLen - 1 - i) (arr.getD (oldLen - 1 - i) 0))

/-- The tail-shift loop from counter `i` up to `tmp`. -/
def shiftLoop (oldLen newLen tmp i : Nat) (arr : List Nat) : List Nat :=
  shiftGo oldLen newLen (tmp - i) i arr

/-- The per-child body of the promotion loop of `kn_multifurcate`:
`p.child[i].parent = par; if (p.child[i].d >= 0 && p.d >= 0) p.child[i].d += p.d;`. -/
def promoteUpd (pd : JsNum) (parIdx : Nat) (n : KNode) : KNode :=
  let n1 := { n with parent := some parIdx }
  if jsGe0 n1.d && jsGe0 pd then { n1 with d := jsAdd n1.d pd } else n1

/-- The promotion loop of `kn_multifurcate`: reparent each child of `p`,
add `p.d` when both lengths are specified, and write the child into the
parent's array at `i + idx`.  The loop bound and the reads of `p.child[i]`
and `p.d` follow the entry snapshot of `p`'s record; the source re-reads
them, which differs only on self-referential graphs no tree contains. -/
def promoteLoop (pd : JsNum) (parIdx idx : Nat) : Nat → List Nat → Store → Store
  | _, [], st => st
  | i, c :: cs, st =>
    let st1 := setN st c (promoteUpd pd parIdx (getN st c))
    let parn := getN st1 parIdx
    let st2 := setN st1 parIdx { parn with child := jsSetIdx parn.child (i + idx) c }
    promoteLoop pd parIdx idx (i + 1) cs st2

/-- `kn_multifurcate(p)`: no-op for a leaf or the root; otherwise replace
`p` by its children inside its parent's child array (extend, shift the
tail right, write the children over the gap). -/
def kn_multifurcate (store : Store) (p : Nat) : Store :=
  let pn := getN store p
  if pn.child.length = 0 ∨ pn.parent = none then store
  else
    let parIdx := pn.parent.getD 0
    let par := getN store parIdx
    let idx := par.child.findIdx (· == p)
    let tmp := par.child.length - idx - 1
    let oldLen := par.child.length
    let newLen := oldLen + pn.child.length - 1
    let child1 := shiftLoop oldLen newLen tmp 0 (jsSetLength par.child newLen)
    let store1 := setN store parIdx { par with child := child1 }
    promoteLoop pn.d parIdx idx 0 pn.child store1

/-! ### Rose trees of arena indices (for the flattener claims C7 and C8) -/

mutual

/-- An unfolding of the arena's pointer graph into a rose tree of indices. -/
inductive ITree : Type where
  | node : Nat → IForest → ITree

/-- A list of sibling subtrees. -/
inductive IForest : Type where
  | fnil : IForest
  | fcons : ITree → IForest → IForest

end

/-- The arena index at a tree's root. -/
def treeIdx : ITree → Nat
  | .node p _ => p

/-- The root indices of a forest, in order. -/
def forestIdx : IForest → List Nat
  | .fnil => []
  | .fcons t ts => treeIdx t :: forestIdx ts

mutual

/-- `shapeB store t`: the rose tree `t` is exactly the unfolding of the
arena's child pointers from its root index. -/
def shapeB (store : Store) : ITree → Bool
  | .node p cs => ((getN store p).child == forestIdx cs) && shapeF store cs

/-- `shapeF`: pointwise `shapeB` over a forest. -/
def shapeF (store : Store) : IForest → Bool
  | .fnil => true
  | .fcons t ts => shapeB store t && shapeF store ts

end

mutual

/-- The postorder sequence of the visible graph: children of a
non-collapsed node first (left to right), then the node; a collapsed
(`hidden`) node contributes only itself. -/
def visPost (store : Store) : ITree → List Nat
  | .node p cs => (if (getN store p).hidden then [] else visPostF store cs) ++ [p]

/-- `visPost` concatenated over a forest. -/
def visPostF (store : Store) : IForest → List Nat
  | .fnil => []
  | .fcons t ts => visPost store t ++ visPostF store ts

end

mutual

/-- The number of `expandRun` steps needed to traverse a subtree: one pop
for a collapsed node, otherwise one descend-step per child plus the
children's own budgets plus the final pop. -/
def tFuel (store : Store) : ITree → Nat
  | .node p cs => if (getN store p).hidden then 1 else fFuel store cs + 1

/-- `tFuel` summed over a forest, with one descend-step per member. -/
def fFuel (store : Store) : IForest → Nat
  | .fnil => 0
  | .fcons t ts => 1 + tFuel store t + fFuel store ts

end

mutual

/-- The postorder sequence with the serializer's depth assignment: the
entry for a node at level `lvl` is `(index, lvl)`, its visited children
carrying `lvl + 1` (root depth 0, child depth = parent depth + 1). -/
def visPostD (store : Store) (lvl : Nat) : ITree → List (Nat × Nat)
  | .node p cs =>
    (if (getN store p).hidden then [] else visPostDF store (lvl + 1) cs) ++ [(p, lvl)]

/-- `visPostD` concatenated over a forest at one level. -/
def visPostDF (store : Store) (lvl : Nat) : IForest → List (Nat × Nat)
  | .fnil => []
  | .fcons t ts => visPostD store lvl t ++ visPostDF store lvl ts

end

/-- Consecutive entries never drop by more than one:
`a` may be followed by `b` only when `a ≤ b + 1`. -/
def chainStepB : List Nat → Bool
  | [] => true
  | [_] => true
  | a :: b :: r => (a ≤ b + 1) && chainStepB (b :: r)

/-! ### Well-formed Newick inputs: tokens, trees, renderer, flat build (claim C1) -/

/-- Whitespace in the parser's sense: skipped between tokens. -/
def wsChar (c : Char) : Bool := !printable c

/-- A plain nonnegative decimal branch-length literal:
`digits+ ('.' digits+)?`. -/
def dsOK (l : List Char) : Bool :=
  let ip := l.takeWhile isDigit
  let r := l.dropWhile isDigit
  !ip.isEmpty &&
    (r.isEmpty || (r.head? == some '.' && !r.tail.isEmpty && r.tail.all isDigit))

/-- The three textual components of one node's token: name characters,
optional branch-length literal (written `:ds`), optional metadata body
(written `[ms]`). -/
structure NTok where
  nm : List Char
  ds : Option (List Char)
  ms : Option (List Char)
deriving Repr, DecidableEq

/-- The token as written: `nm`, then `:ds`, then `[ms]`. -/
def tokText (t : NTok) : List Char :=
  t.nm ++ (match t.ds with | some d => ':' :: d | none => []) ++
    (match t.ms with | some m => '[' :: (m ++ [']']) | none => [])

/-- The `meta` field the scanner stores: the bracketed text, verbatim. -/
def tokMeta (t : NTok) : List Char :=
  match t.ms with | some m => '[' :: (m ++ [']']) | none => []

/-- The `d` field the scanner stores. -/
def tokD (t : NTok) : JsNum :=
  match t.ds with | some d => jsParseFloat d | none => jsNeg1

/-- The node record the token scan produces (before parents/children are
linked): a token with neither `:` nor `[` keeps scanning through trailing
whitespace, so its name absorbs `ws`. -/
def tokNodeL (t : NTok) (ws : List Char) : KNode :=
  ⟨none, [], t.nm ++ (if t.ds = none ∧ t.ms = none then ws else []),
    tokMeta t, tokD t, false, false⟩

mutual

/-- A Newick syntax tree: a leaf token, or a parenthesized nonempty child
list followed by the node's own token. -/
inductive PTree : Type where
  | pleaf : NTok → PTree
  | pnode : PForest → NTok → PTree

/-- A nonempty child list. -/
inductive PForest : Type where
  | pone : PTree → PForest
  | pcons : PTree → PForest → PForest

end

mutual

/-- Render a tree: `(` children `wB` `)` token, with `wA` after each
separating comma. -/
def emitT (wA wB : List Char) : PTree → List Char
  | .pleaf tok => tokText tok
  | .pnode cs tok => '(' :: (emitF wA wB cs ++ wB ++ ')' :: tokText tok)

/-- Render a child list with `,wA` separators. -/
def emitF (wA wB : List Char) : PForest → List Char
  | .pone c => emitT wA wB c
  | .pcons c cs => emitT wA wB c ++ ',' :: (wA ++ emitF wA wB cs)

end

/-- Characters the token scanner steps over: anything but `,`, `)`, `:`,
`[`. -/
def nmCharOK (c : Char) : Bool := !(c = ',' || c = ')' || c = ':' || c = '[')

/-- Token well-formedness: scannable name characters, a plain decimal
branch length, a metadata body with no `]`. -/
def wfTok (t : NTok) : Bool :=
  t.nm.all nmCharOK &&
  (match t.ds with | none => true | some d => dsOK d) &&
  (match t.ms with | none => true | some m => m.all (fun c => !(c = ']')))

/-- A leaf token must start with a printable non-`(` character (or with
its `:`/`[` part), so the parser's dispatch enters the leaf branch. -/
def leafStartOK (t : NTok) : Bool :=
  match t.nm with
  | c :: _ => printable c && !(c = '(')
  | [] => t.ds.isSome || t.ms.isSome

mutual

/-- Well-formed tree: every token well formed, leaves dispatchable. -/
def wfT : PTree → Bool
  | .pleaf tok => wfTok tok && leafStartOK tok
  | .pnode cs tok => wfTok tok && wfF cs

/-- Well-formed child list. -/
def wfF : PForest → Bool
  | .pone c => wfT c
  | .pcons c cs => wfT c && wfF cs

end

mutual

/-- Number of nodes of a tree. -/
def sizeT : PTree → Nat
  | .pleaf _ => 1
  | .pnode cs _ => sizeF cs + 1

/-- Number of nodes of a child list. -/
def sizeF : PForest → Nat
  | .pone c => sizeT c
  | .pcons c cs => sizeT c + sizeF cs

end

mutual

/-- Number of leaves of a tree (`n_tips`). -/
def tipsT : PTree → Nat
  | .pleaf _ => 1
  | .pnode cs _ => tipsF cs

/-- Number of leaves of a child list. -/
def tipsF : PForest → Nat
  | .pone c => tipsT c
  | .pcons c cs => tipsT c + tipsF cs

end

/-- Arena indices of the child roots when the child list is laid out in
postorder starting at `base`. -/
def rootsF : Nat → PForest → List Nat
  | base, .pone c => [base + (sizeT c - 1)]
  | base, .pcons c cs => (base + (sizeT c - 1)) :: rootsF (base + sizeT c) cs

mutual

/-- The postorder node records of a tree laid out from index `base`, the
root (last record) carrying parent `par` and trailing whitespace `ws`;
last children inside absorb `wB`. -/
def flatT (wB : List Char) : PTree → List Char → Nat → Option Nat → List KNode
  | .pleaf tok, ws, _, par => [{ tokNodeL tok ws with parent := par }]
  | .pnode cs tok, ws, base, par =>
    flatF wB cs base (some (base + sizeF cs)) ++
      [{ tokNodeL tok ws with parent := par, child := rootsF base cs }]

/-- The postorder records of a child list; non-last children absorb no
whitespace, the last absorbs `wB` (it precedes the `wB ++ ")"` closer). -/
def flatF (wB : List Char) : PForest → Nat → Option Nat → List KNode
  | .pone c, base, par => flatT wB c wB base par
  | .pcons c cs, base, par =>
    flatT wB c [] base par ++ flatF wB cs (base + sizeT c) par

end

mutual

/-- Depths of the postorder records: children one deeper than the root. -/
def depsT : PTree → Nat → List Nat
  | .pleaf _, dp => [dp]
  | .pnode cs _, dp => depsF cs (dp + 1) ++ [dp]

/-- Depths over a child list. -/
def depsF : PForest → Nat → List Nat
  | .pone c, dp => depsT c dp
  | .pcons c cs, dp => depsT c dp ++ depsF cs dp

end

/-- The token a node carries after one parse/write round: the possibly
whitespace-polluted name, the branch length re-printed by the writer when
nonnegative, the metadata unchanged. -/
def mapTok (t : NTok) (ws : List Char) : NTok :=
  ⟨t.nm ++ (if t.ds = none ∧ t.ms = none then ws else []),
   (match t.ds with
    | some d =>
      match jsParseFloat d with
      | some q => if 0 ≤ q.m then some (printNum q) else none
      | none => none
    | none => none),
   t.ms⟩

mutual

/-- The tree as re-emitted by `kn_write_nh` after parsing. -/
def mapT (wB : List Char) : PTree → List Char → PTree
  | .pleaf tok, ws => .pleaf (mapTok tok ws)
  | .pnode cs tok, ws => .pnode (mapF wB cs) (mapTok tok ws)

/-- `mapT` over a child list. -/
def mapF (wB : List Char) : PForest → PForest
  | .pone c => .pone (mapT wB c wB)
  | .pcons c cs => .pcons (mapT wB c []) (mapF wB cs)

end

/-! ## Claim theorems -/

/-- The name-independent projection of a node: parent link, child links,
metadata string, branch length.  Claim C1 compares parse results on
exactly these fields (topology, branch lengths, metadata). -/
def nodeShape (n : KNode) : Option Nat × List Nat × List Char × JsNum :=
  (n.parent, n.child, n.meta, n.d)

/-- C10: parsing `"(A,B);"` stores the trailing statement terminator
verbatim in the root's name — the token scanner invoked after `')'`
consumes every character up to `','`, `')'` or end of input, so the root's
name is exactly the one-character string `";"`, not the empty string. -/
theorem c10_semicolon_captured_in_root_name :
    (getN (kn_parse "(A,B);".data).node (rootIdx (kn_parse "(A,B);".data))).name = [';'] ∧
    (kn_parse "(A,B);".data).node.length = 3 ∧
    (kn_parse "(A,B);".data).error = 0 := by
  decide

/-- C5 (code bug): pruning a non-root node whose parent has four children
throws.  In the source, the removal loop reads `p.node[k]` — a property no
node object has (`p.child` was intended) — so the first iteration throws
`TypeError` instead of removing the node.  Here: in `"(A,B,C,D);"` node 0
(`A`) is not the root and its parent (node 4) has four children, yet
`kn_remove_node` fails with the modelled `TypeError`. -/
theorem c5_remove_from_multichild_parent_throws :
    (getN (kn_parse "(A,B,C,D);".data).node 0).parent = some 4 ∧
    (getN (kn_parse "(A,B,C,D);".data).node 4).child.length = 4 ∧
    (0 : Nat) ≠ rootIdx (kn_parse "(A,B,C,D);".data) ∧
    kn_remove_node (kn_parse "(A,B,C,D);".data).node (List.range 5) 0 =
      .error .typeError := by
  decide

/-- C9 (code bug): a malformed search pattern is not reported as a usage
error — `new RegExp(pattern, 'i')` throws `SyntaxError` on a malformed
pattern, so `kn_search_leaf` aborts before its `if (re == null) alert(...)`
test (which is unreachable: the constructor never returns null) and before
the highlight loop.  The result holds for any matcher semantics `test`. -/
theorem c9_malformed_pattern_throws_before_reporting :
    regexValid "(".data = false ∧
    ∀ test : List Char → List Char → Bool,
      kn_search_leaf test (kn_parse "(A,B);".data).node (some "(".data) =
        .error .syntaxError :=
  ⟨by decide, fun _ => rfl⟩

/-- C3 counterexample: in `"(A,B,C,D);"`, `p = 0` (`A`) is not the root and
is not found on `q = 2`'s parent chain, so the claim asserts the regraft
succeeds; instead `kn_move_node` throws (the prune step reads `p.node[k]`
of a four-child parent), neither succeeding nor failing cleanly. -/
theorem c3_counterexample_move_crashes_instead_of_succeeding :
    (0 : Nat) ≠ rootIdx (kn_parse "(A,B,C,D);".data) ∧
    walkChain (kn_parse "(A,B,C,D);".data).node 0 6 2 = .ok false ∧
    kn_move_node (kn_parse "(A,B,C,D);".data).node (List.range 5) 0 2 =
      .error .typeError := by
  decide

/-- C4 counterexample: pruning `B` from `"((A:5,B),C);"` splices out the
two-child parent (node 2), whose branch length is the unspecified sentinel
`-1`, while the surviving sibling `A` has the specified length `5`.  The
claim says the result must be the unspecified sentinel; the code computes
`q.d += p.d` unconditionally, so `A` ends with the specified length `4`. -/
theorem c4_counterexample_sentinel_participates_in_sum :
    (getN (kn_parse "((A:5,B),C);".data).node 2).d = some ⟨-1, 0⟩ ∧
    (getN (kn_parse "((A:5,B),C);".data).node 0).d = some ⟨5, 0⟩ ∧
    (match kn_remove_node (kn_parse "((A:5,B),C);".data).node (List.range 5) 1 with
     | .ok (st, _) => (getN st 0).d
     | .error _ => none) = some ⟨4, 0⟩ ∧
    jsGe0 (some ⟨4, 0⟩) = true := by
  decide

/-! ### Scanner characterizations (used for C2 and the round-trip proof) -/

theorem metaOff_spec (l : List Char) :
    (∀ k, k < metaOff l → l[k]? ≠ some ']') ∧
    (metaOff l < l.length → l[metaOff l]? = some ']') := by
  induction l with
  | nil => exact ⟨fun k hk => by simp [metaOff] at hk, fun h => by simp [metaOff] at h⟩
  | cons c r ih =>
      unfold metaOff
      split
      · next hc =>
          subst hc
          exact ⟨fun k hk => by omega, fun _ => by simp⟩
      · next hc =>
          refine ⟨fun k hk => ?_, fun h => ?_⟩
          · match k with
            | 0 => simpa using hc
            | k + 1 =>
                simp only [List.getElem?_cons_succ]
                exact ih.1 k (by omega)
          · simp only [List.getElem?_cons_succ]
            exact ih.2 (by simpa using h)

theorem numOff_spec (l : List Char) :
    (∀ k, k < numOff l → ∃ c, l[k]? = some c ∧ numChar c = true) ∧
    (numOff l < l.length → ∃ c, l[numOff l]? = some c ∧ numChar c = false) := by
  induction l with
  | nil => exact ⟨fun k hk => by simp [numOff] at hk, fun h => by simp [numOff] at h⟩
  | cons c r ih =>
      unfold numOff
      split
      · next hc =>
          refine ⟨fun k hk => ?_, fun h => ?_⟩
          · match k with
            | 0 => exact ⟨c, by simp, hc⟩
            | k + 1 =>
                simp only [List.getElem?_cons_succ]
                exact ih.1 k (by omega)
          · simp only [List.getElem?_cons_succ]
            exact ih.2 (by simpa using h)
      · next hc =>
          exact ⟨fun k hk => by omega, fun _ => ⟨c, by simp, by simpa using hc⟩⟩

theorem scanMeta_spec (s : List Char) (i : Nat) (hi : i ≤ s.length) :
    (∀ k, i ≤ k → k < scanMeta s i → s[k]? ≠ some ']') ∧
    (scanMeta s i < s.length → s[scanMeta s i]? = some ']') := by
  have h1 := metaOff_spec (s.drop i)
  constructor
  · intro k hk1 hk2
    have := h1.1 (k - i) (by unfold scanMeta at hk2; omega)
    rwa [List.getElem?_drop, show i + (k - i) = k by omega] at this
  · intro h
    have hlt : metaOff (s.drop i) < (s.drop i).length := by
      simp only [List.length_drop]
      unfold scanMeta at h
      omega
    have := h1.2 hlt
    rwa [List.getElem?_drop] at this

theorem scanNum_spec (s : List Char) (i : Nat) (hi : i ≤ s.length) :
    (∀ k, i ≤ k → k < scanNum s i → ∃ c, s[k]? = some c ∧ numChar c = true) ∧
    (scanNum s i < s.length → ∃ c, s[scanNum s i]? = some c ∧ numChar c = false) := by
  have h1 := numOff_spec (s.drop i)
  constructor
  · intro k hk1 hk2
    have := h1.1 (k - i) (by unfold scanNum at hk2; omega)
    rwa [List.getElem?_drop, show i + (k - i) = k by omega] at this
  · intro h
    have hlt : numOff (s.drop i) < (s.drop i).length := by
      simp only [List.length_drop]
      unfold scanNum at h
      omega
    have := h1.2 hlt
    rwa [List.getElem?_drop] at this

/-- The token loop only ever ORs `4` into the error mask. -/
theorem addGo_error (s : List Char) (fuel : Nat) (st : AddState) :
    (addGo s fuel st).error = st.error ∨ (addGo s fuel st).error = st.error ||| 4 := by
  induction fuel generalizing st with
  | zero => exact Or.inl rfl
  | succ fuel ih =>
      rw [addGo]
      split
      · split
        · exact Or.inl rfl
        · split
          · split
            · exact Or.inr rfl
            · exact ih _
          · split
            · exact ih _
            · exact ih _
      · exact Or.inl rfl

theorem kn_add_node_error (s : List Char) (l e : Nat) :
    (kn_add_node s l e).2.1 = e ∨ (kn_add_node s l e).2.1 = e ||| 4 :=
  addGo_error s (s.length + 1) ⟨l, 0, [], jsNeg1, e⟩

theorem testBit_or_four (e : Nat) (i : Nat) (hi : i ≠ 2) :
    (e ||| 4).testBit i = e.testBit i := by
  rw [Nat.testBit_or]
  have : (4 : Nat).testBit i = false := by
    match i, hi with
    | 0, _ => rfl
    | 1, _ => rfl
    | 2, h => omega
    | n + 3, _ =>
        show Nat.testBit 4 (n + 3) = false
        have : (4 : Nat) < 2 ^ (n + 3) := by
          calc (4:Nat) < 8 := by omega
          _ = 2 ^ 3 := rfl
          _ ≤ 2 ^ (n + 3) := Nat.pow_le_pow_right (by omega) (by omega)
        exact Nat.testBit_lt_two_pow this
  rw [this, Bool.or_false]

/-! ### Step lemmas for the parser loop -/

theorem parseGo_step_end (s : List Char) (fuel l : Nat) (ps : PState)
    (h : ¬ l < s.length) :
    parseGo s (fuel + 1) l ps = { ps with pos := l } := by
  rw [parseGo, dif_neg h]

theorem parseGo_step_ws (s : List Char) (fuel l : Nat) (ps : PState)
    (h : l < s.length) (hc : ¬ printable (s[l]) = true) :
    parseGo s (fuel + 1) l ps = parseGo s fuel (l + 1) ps := by
  rw [parseGo, dif_pos h, if_pos hc]

theorem parseGo_step_comma (s : List Char) (fuel l : Nat) (ps : PState)
    (h : l < s.length) (hp : printable (s[l]) = true)
    (hc : s[l] = ',') :
    parseGo s (fuel + 1) l ps = parseGo s fuel (l + 1) ps := by
  rw [parseGo, dif_pos h, if_neg (by simp [hp]), if_pos hc]

theorem parseGo_step_open (s : List Char) (fuel l : Nat) (ps : PState)
    (h : l < s.length) (hp : printable (s[l]) = true)
    (hc : s[l] = '(') :
    parseGo s (fuel + 1) l ps =
      parseGo s fuel (l + 1) { ps with stack := (-1) :: ps.stack } := by
  rw [parseGo, dif_pos h, if_neg (by simp [hp]), if_neg (by simp [hc]), if_pos hc]

theorem parseGo_step_close_break (s : List Char) (fuel l : Nat) (ps : PState)
    (h : l < s.length) (hp : printable (s[l]) = true)
    (hc : s[l] = ')')
    (hstk : ps.stack.dropWhile (fun v => 0 ≤ v) = []) :
    parseGo s (fuel + 1) l ps = { ps with error := ps.error ||| 1, pos := l } := by
  rw [parseGo, dif_pos h, if_neg (by simp [hp]), if_neg (by simp [hc]),
    if_neg (by simp [hc]), if_pos hc]
  rw [hstk]

theorem parseGo_step_close (s : List Char) (fuel l : Nat) (ps : PState)
    (h : l < s.length) (hp : printable (s[l]) = true)
    (hc : s[l] = ')') (m : Int) (rest : List Int)
    (hstk : ps.stack.dropWhile (fun v => 0 ≤ v) = m :: rest) :
    parseGo s (fuel + 1) l ps =
      parseGo s fuel (kn_add_node s (l + 1) ps.error).2.2
        { nodes := setParents
            (ps.nodes ++ [{ (kn_add_node s (l + 1) ps.error).1 with
              child := ((ps.stack.takeWhile (fun v => 0 ≤ v)).map Int.toNat).reverse }])
            ps.nodes.length
            ((ps.stack.takeWhile (fun v => 0 ≤ v)).map Int.toNat).reverse,
          stack := (ps.nodes.length : Int) :: rest,
          error := (kn_add_node s (l + 1) ps.error).2.1,
          n_tips := ps.n_tips,
          pos := (kn_add_node s (l + 1) ps.error).2.2 } := by
  rw [parseGo, dif_pos h, if_neg (by simp [hp]), if_neg (by simp [hc]),
    if_neg (by simp [hc]), if_pos hc]
  rw [hstk]

theorem parseGo_step_leaf (s : List Char) (fuel l : Nat) (ps : PState)
    (h : l < s.length) (hp : printable (s[l]) = true)
    (hc1 : ¬ s[l] = ',') (hc2 : ¬ s[l] = '(')
    (hc3 : ¬ s[l] = ')') :
    parseGo s (fuel + 1) l ps =
      parseGo s fuel (kn_add_node s l ps.error).2.2
        { nodes := ps.nodes ++ [(kn_add_node s l ps.error).1],
          stack := (ps.nodes.length : Int) :: ps.stack,
          error := (kn_add_node s l ps.error).2.1,
          n_tips := ps.n_tips + 1,
          pos := (kn_add_node s l ps.error).2.2 } := by
  rw [parseGo, dif_pos h, if_neg (by simp [hp]), if_neg hc1, if_neg hc2, if_neg hc3]

/-- Error bit 0x1 is set exactly when the scan stopped at a `')'` with no
boundary marker (no negative entry) on the stack. -/
theorem parseGo_bit0 (s : List Char) (fuel : Nat) :
    ∀ l ps, l ≤ s.length → s.length - l < fuel → ps.error.testBit 0 = false →
      ((parseGo s fuel l ps).error.testBit 0 = true ↔
        ((parseGo s fuel l ps).pos < s.length ∧
          s[(parseGo s fuel l ps).pos]? = some ')' ∧
          ∀ v ∈ (parseGo s fuel l ps).stack, (0 : Int) ≤ v)) := by
  induction fuel with
  | zero =>
      intro l ps hl hf hb
      omega
  | succ fuel ih =>
      intro l ps hl hf hb
      by_cases h : l < s.length
      · by_cases hpr : printable s[l] = true
        · by_cases hcomma : s[l] = ','
          · rw [parseGo_step_comma s fuel l ps h hpr hcomma]
            exact ih (l + 1) ps (by omega) (by omega) hb
          · by_cases hopen : s[l] = '('
            · rw [parseGo_step_open s fuel l ps h hpr hopen]
              exact ih (l + 1) _ (by omega) (by omega) hb
            · by_cases hclose : s[l] = ')'
              · cases hstk : ps.stack.dropWhile (fun v => 0 ≤ v) with
                | nil =>
                    rw [parseGo_step_close_break s fuel l ps h hpr hclose hstk]
                    simp only []
                    constructor
                    · intro _
                      refine ⟨h, ?_, fun v hv => ?_⟩
                      · rw [List.getElem?_eq_getElem h, hclose]
                      · have := List.dropWhile_eq_nil_iff.1 hstk v hv
                        exact of_decide_eq_true this
                    · intro _
                      rw [Nat.testBit_or]
                      simp
                | cons m rest =>
                    rw [parseGo_step_close s fuel l ps h hpr hclose m rest hstk]
                    refine ih _ _ (kn_add_node_le s (l + 1) ps.error (by omega)) ?_ ?_
                    · have := kn_add_node_ge s (l + 1) ps.error
                      omega
                    · rcases kn_add_node_error s (l + 1) ps.error with he | he
                      · simpa [he] using hb
                      · rw [he, testBit_or_four _ _ (by omega)]
                        exact hb
              · rw [parseGo_step_leaf s fuel l ps h hpr hcomma hopen hclose]
                refine ih _ _ (kn_add_node_le s l ps.error (by omega)) ?_ ?_
                · have := kn_add_node_gt s l ps.error h (by
                    intro hor
                    exact hor.elim hcomma hclose)
                  omega
                · rcases kn_add_node_error s l ps.error with he | he
                  · simpa [he] using hb
                  · rw [he, testBit_or_four _ _ (by omega)]
                    exact hb
        · rw [parseGo_step_ws s fuel l ps h hpr]
          exact ih (l + 1) ps (by omega) (by omega) hb
      · rw [parseGo_step_end s fuel l ps h]
        simp only [hb]
        constructor
        · intro hx
          cases hx
        · intro hx
          omega

/-- Error bit 0x2 is never set inside the scan loop. -/
theorem parseGo_bit1 (s : List Char) (fuel : Nat) :
    ∀ l ps, (parseGo s fuel l ps).error.testBit 1 = ps.error.testBit 1 := by
  induction fuel with
  | zero => intro l ps; rfl
  | succ fuel ih =>
      intro l ps
      by_cases h : l < s.length
      · by_cases hpr : printable s[l] = true
        · by_cases hcomma : s[l] = ','
          · rw [parseGo_step_comma s fuel l ps h hpr hcomma]; exact ih _ _
          · by_cases hopen : s[l] = '('
            · rw [parseGo_step_open s fuel l ps h hpr hopen]; exact ih _ _
            · by_cases hclose : s[l] = ')'
              · cases hstk : ps.stack.dropWhile (fun v => 0 ≤ v) with
                | nil =>
                    rw [parseGo_step_close_break s fuel l ps h hpr hclose hstk]
                    simp only []
                    rw [Nat.testBit_or]
                    simp [Nat.testBit]
                | cons m rest =>
                    rw [parseGo_step_close s fuel l ps h hpr hclose m rest hstk]
                    rw [ih _ _]
                    simp only []
                    rcases kn_add_node_error s (l + 1) ps.error with he | he
                    · rw [he]
                    · rw [he, testBit_or_four _ _ (by omega)]
              · rw [parseGo_step_leaf s fuel l ps h hpr hcomma hopen hclose]
                rw [ih _ _]
                simp only []
                rcases kn_add_node_error s l ps.error with he | he
                · rw [he]
                · rw [he, testBit_or_four _ _ (by omega)]
        · rw [parseGo_step_ws s fuel l ps h hpr]; exact ih _ _
      · rw [parseGo_step_end s fuel l ps h]

/-- Error bit 0x4 is set by the token scanner exactly when a `'['` opens a
metadata block that reaches end of input with no closing `']'`. -/
theorem addGo_bit4 (s : List Char) (fuel : Nat) :
    ∀ st : AddState, st.i ≤ s.length → s.length - st.i < fuel →
      ((addGo s fuel st).error.testBit 2 = true ↔
        (st.error.testBit 2 = true ∨
          ∃ k, st.i ≤ k ∧ k < (addGo s fuel st).i ∧ s[k]? = some '[' ∧
            ∀ j, k < j → s[j]? ≠ some ']')) := by
  induction fuel with
  | zero =>
      intro st hl hf
      omega
  | succ fuel ih =>
      intro st hl hf
      rw [addGo]
      split
      · next h =>
          split
          · next hc =>
              constructor
              · intro hb
                exact Or.inl hb
              · rintro (hb | ⟨k, hk1, hk2, _, _⟩)
                · exact hb
                · omega
          · next hc =>
              split
              · next hb =>
                  split
                  · next hj =>
                      simp only []
                      constructor
                      · intro _
                        refine Or.inr ⟨st.i, Nat.le_refl _, ?_, ?_, ?_⟩
                        · have := scanMeta_ge s (st.i + 1)
                          omega
                        · rw [List.getElem?_eq_getElem h, hb]
                        · intro j hj2
                          by_cases hjl : j < s.length
                          · have := (scanMeta_spec s (st.i + 1) (by omega)).1 j (by omega) (by omega)
                            exact this
                          · rw [List.getElem?_eq_none (by omega)]
                            intro hx
                            cases hx
                      · intro _
                        rw [Nat.testBit_or]
                        have : Nat.testBit 4 2 = true := by decide
                        rw [this, Bool.or_true]
                  · next hj =>
                      have hjlt : scanMeta s (st.i + 1) < s.length := by
                        have := scanMeta_le s (st.i + 1) (by omega)
                        omega
                      have hcl : s[scanMeta s (st.i + 1)]? = some ']' :=
                        (scanMeta_spec s (st.i + 1) (by omega)).2 hjlt
                      have hih := ih { st with i := scanMeta s (st.i + 1) + 1, e := updE st.e st.i, meta := jsSubstr s st.i (scanMeta s (st.i + 1) - st.i + 1) } (by simp only []; omega) (by simp only []; have := scanMeta_ge s (st.i + 1); omega)
                      simp only [] at hih
                      rw [hih]
                      constructor
                      · rintro (hb2 | ⟨k, hk1, hk2, hk3, hk4⟩)
                        · exact Or.inl hb2
                        · exact Or.inr ⟨k, Nat.le_trans (by have := scanMeta_ge s (st.i + 1); omega) hk1, hk2, hk3, hk4⟩
                      · rintro (hb2 | ⟨k, hk1, hk2, hk3, hk4⟩)
                        · exact Or.inl hb2
                        · refine Or.inr ⟨k, ?_, hk2, hk3, hk4⟩
                          show scanMeta s (st.i + 1) + 1 ≤ k
                          by_contra hklt
                          push_neg at hklt
                          rcases Nat.lt_or_ge k (scanMeta s (st.i + 1)) with hk5 | hk5
                          · exact hk4 (scanMeta s (st.i + 1)) hk5 hcl
                          · have hkeq : k = scanMeta s (st.i + 1) := by omega
                            rw [hkeq, hcl] at hk3
                            exact absurd (Option.some.inj hk3) (by decide)
              · next hb =>
                  split
                  · next hcol =>
                      have hih := ih { st with i := scanNum s (st.i + 1), e := updE st.e st.i, d := jsParseFloat (jsSubstr s (st.i + 1) (scanNum s (st.i + 1) - st.i - 1)) } (by simp only []; exact scanNum_le s (st.i + 1) (by omega)) (by simp only []; have := scanNum_ge s (st.i + 1); omega)
                      simp only [] at hih
                      rw [hih]
                      constructor
                      · rintro (hb2 | ⟨k, hk1, hk2, hk3, hk4⟩)
                        · exact Or.inl hb2
                        · exact Or.inr ⟨k, Nat.le_trans (by have := scanNum_ge s (st.i + 1); omega) hk1, hk2, hk3, hk4⟩
                      · rintro (hb2 | ⟨k, hk1, hk2, hk3, hk4⟩)
                        · exact Or.inl hb2
                        · refine Or.inr ⟨k, ?_, hk2, hk3, hk4⟩
                          show scanNum s (st.i + 1) ≤ k
                          by_contra hklt
                          push_neg at hklt
                          rcases Nat.eq_or_lt_of_le hk1 with h6 | h6
                          · rw [← h6, List.getElem?_eq_getElem h] at hk3
                            exact absurd (Option.some.inj hk3) hb
                          · have h7 : k < scanNum s (st.i + 1) := by omega
                            obtain ⟨c, hc1, hc2⟩ := (scanNum_spec s (st.i + 1) (by omega)).1 k (by omega) h7
                            have hcb : c = '[' := Option.some.inj (hc1.symm.trans hk3)
                            rw [hcb] at hc2
                            exact absurd hc2 (by decide)
                  · next hcol =>
                      have hih := ih { st with i := st.i + 1 } (by simp only []; omega) (by simp only []; omega)
                      simp only [] at hih
                      rw [hih]
                      constructor
                      · rintro (hb2 | ⟨k, hk1, hk2, hk3, hk4⟩)
                        · exact Or.inl hb2
                        · exact Or.inr ⟨k, Nat.le_trans (Nat.le_succ _) hk1, hk2, hk3, hk4⟩
                      · rintro (hb2 | ⟨k, hk1, hk2, hk3, hk4⟩)
                        · exact Or.inl hb2
                        · refine Or.inr ⟨k, ?_, hk2, hk3, hk4⟩
                          show st.i + 1 ≤ k
                          rcases Nat.eq_or_lt_of_le hk1 with h6 | h6
                          · rw [← h6, List.getElem?_eq_getElem h] at hk3
                            exact absurd (Option.some.inj hk3) hb
                          · omega
      · next h =>
          constructor
          · intro hb
            exact Or.inl hb
          · rintro (hb | ⟨k, hk1, hk2, _, _⟩)
            · exact hb
            · omega

/-- C2: `kn_parse` never aborts destructively (the embedding is a total
function producing a tree for every input, with parsing stopping early only
in the unmatched-`')'` case), and the error bits are characterized exactly:
bit 0x1 is set iff the scan stopped at a `')'` (position still inside the
input) with no boundary marker (negative entry) on the stack; bit 0x2 is
set iff more than one entry remains on the stack after the scan; bit 0x4 is
set by the token scanner `kn_add_node` iff it was already set or some `'['`
inside the scanned token opens a metadata block with no `']'` anywhere
after it (so the scan reaches end of input).  Bits combine independently. -/
theorem c2_error_bits_exact (s : List Char) :
    ((kn_parse s).error.testBit 0 = true ↔
      ((kn_parseAux s).pos < s.length ∧
        s[(kn_parseAux s).pos]? = some ')' ∧
        ∀ v ∈ (kn_parseAux s).stack, (0 : Int) ≤ v)) ∧
    ((kn_parse s).error.testBit 1 = true ↔ 1 < (kn_parseAux s).stack.length) ∧
    (∀ l e, l ≤ s.length →
      ((kn_add_node s l e).2.1.testBit 2 = true ↔
        (e.testBit 2 = true ∨
          ∃ k, l ≤ k ∧ k < (kn_add_node s l e).2.2 ∧ s[k]? = some '[' ∧
            ∀ j, k < j → s[j]? ≠ some ']'))) := by
  have hbase := parseGo_bit0 s (s.length + 1) 0 ⟨[], [], 0, 0, 0⟩ (by omega) (by omega) rfl
  have hbase1 := parseGo_bit1 s (s.length + 1) 0 ⟨[], [], 0, 0, 0⟩
  refine ⟨?_, ?_, ?_⟩
  · show ((kn_parseAux s).error.testBit 0 = true ↔ _)
    unfold kn_parseAux parseLoop
    simp only []
    split
    · rw [Nat.testBit_or, show Nat.testBit 2 0 = false from rfl, Bool.or_false]
      exact hbase
    · exact hbase
  · show ((kn_parseAux s).error.testBit 1 = true ↔ _)
    unfold kn_parseAux parseLoop
    simp only []
    split
    · next hlen =>
        rw [Nat.testBit_or, show Nat.testBit 2 1 = true from rfl, Bool.or_true]
        exact ⟨fun _ => hlen, fun _ => rfl⟩
    · next hlen =>
        rw [show (0 : Nat) = ({ nodes := ([] : Store), stack := ([] : List Int), error := 0, n_tips := 0, pos := 0 } : PState).error from rfl] at hbase1
        rw [hbase1]
        show (Nat.testBit 0 1 = true ↔ _)
        rw [show Nat.testBit 0 1 = false from rfl]
        exact ⟨fun hx => Bool.noConfusion hx, fun hx => absurd hx hlen⟩
  · intro l e hl
    have := addGo_bit4 s (s.length + 1) ⟨l, 0, [], jsNeg1, e⟩ hl (by omega)
    exact this

/-- Witness for C2 at a concrete input: scanning the token of `"(A[x);"`
starting at position 1 sets error bit 0x4, because the `'['` at position 2
has no `']'` anywhere after it. -/
theorem c2_error_bits_exact_witness :
    (1 : Nat) ≤ "(A[x);".data.length ∧
    ((kn_add_node "(A[x);".data 1 0).2.1.testBit 2 = true ↔
      ((0 : Nat).testBit 2 = true ∨
        ∃ k, 1 ≤ k ∧ k < (kn_add_node "(A[x);".data 1 0).2.2 ∧
          "(A[x);".data[k]? = some '[' ∧
          ∀ j, k < j → "(A[x);".data[j]? ≠ some ']')) :=
  ⟨by decide, (c2_error_bits_exact "(A[x);".data).2.2 1 0 (by decide)⟩

/-! ### Array-surgery lemmas for `kn_multifurcate` (claim C6) -/

theorem jsSetIdx_length (l : List Nat) (i v : Nat) (h : i < l.length) :
    (jsSetIdx l i v).length = l.length := by
  unfold jsSetIdx
  rw [if_pos h]
  exact List.length_set l i v

theorem jsSetIdx_getElem (l : List Nat) (i v : Nat) (h : i < l.length) (j : Nat) :
    (jsSetIdx l i v)[j]? = if j = i then some v else l[j]? := by
  unfold jsSetIdx
  rw [if_pos h]
  split
  · next hj =>
      subst hj
      exact List.getElem?_set_self (by omega)
  · next hj =>
      exact List.getElem?_set_ne (fun hx => hj hx.symm)

theorem jsSetLength_length (l : List Nat) (n : Nat) :
    (jsSetLength l n).length = n := by
  unfold jsSetLength
  split
  · next h =>
      rw [List.length_take]
      omega
  · next h =>
      rw [List.length_append, List.length_replicate]
      omega

theorem jsSetLength_getElem (l : List Nat) (n : Nat) (j : Nat) (hj : j < l.length)
    (hn : j < n) : (jsSetLength l n)[j]? = l[j]? := by
  unfold jsSetLength
  split
  · next h =>
      rw [List.getElem?_take_of_lt hn]
  · next h =>
      rw [List.getElem?_append_left (by omega)]

/-- Pointwise effect of the tail-shift loop: positions
`[newLen - i - cnt, newLen - i)` receive the entry `newLen - oldLen`
places to their left; every other position is untouched.  (The reads all
happen before the corresponding positions are overwritten.) -/
theorem shiftGo_spec (oldLen newLen : Nat) (hON : oldLen ≤ newLen) :
    ∀ (cnt i : Nat) (arr : List Nat), arr.length = newLen → i + cnt ≤ newLen →
      (shiftGo oldLen newLen cnt i arr).length = newLen ∧
      ∀ j, (shiftGo oldLen newLen cnt i arr)[j]? =
        if newLen - i - cnt ≤ j ∧ j < newLen - i then arr[j - (newLen - oldLen)]?
        else arr[j]? := by
  intro cnt
  induction cnt with
  | zero =>
      intro i arr hlen hle
      rw [shiftGo]
      refine ⟨hlen, fun j => ?_⟩
      rw [if_neg (by omega)]
  | succ cnt ih =>
      intro i arr hlen hle
      rw [shiftGo]
      have hw : newLen - 1 - i < arr.length := by omega
      have hlen1 : (jsSetIdx arr (newLen - 1 - i) (arr.getD (oldLen - 1 - i) 0)).length = newLen := by
        rw [jsSetIdx_length _ _ _ hw, hlen]
      obtain ⟨hrl, hrg⟩ := ih (i + 1) _ hlen1 (by omega)
      refine ⟨hrl, fun j => ?_⟩
      rw [hrg j]
      by_cases hreg : newLen - (i + 1) - cnt ≤ j ∧ j < newLen - (i + 1)
      · rw [if_pos hreg, if_pos (by omega)]
        rw [jsSetIdx_getElem _ _ _ hw]
        rw [if_neg (by omega)]
      · rw [if_neg hreg]
        by_cases hj : j = newLen - 1 - i
        · subst hj
          rw [if_pos (by omega)]
          rw [jsSetIdx_getElem _ _ _ hw, if_pos rfl]
          have hrd : oldLen - 1 - i < arr.length := by omega
          rw [List.getD_eq_getElem?_getD, show newLen - 1 - i - (newLen - oldLen) = oldLen - 1 - i by omega]
          rw [List.getElem?_eq_getElem hrd]
          rfl
        · rw [if_neg (by omega)]
          rw [jsSetIdx_getElem _ _ _ hw, if_neg hj]

/-- Sequential in-bounds writes of `cs` into `ch` starting at `pos`. -/
def setSeq (ch : List Nat) (pos : Nat) : List Nat → List Nat
  | [] => ch
  | c :: cs => setSeq (jsSetIdx ch pos c) (pos + 1) cs

theorem setSeq_length (cs : List Nat) : ∀ (ch : List Nat) (pos : Nat),
    pos + cs.length ≤ ch.length → (setSeq ch pos cs).length = ch.length := by
  induction cs with
  | nil => intro ch pos _; rfl
  | cons c cs ih =>
      intro ch pos hle
      simp only [List.length_cons] at hle
      rw [setSeq, ih _ (pos + 1) (by rw [jsSetIdx_length _ _ _ (by omega)]; omega),
        jsSetIdx_length _ _ _ (by omega)]

theorem setSeq_getElem (cs : List Nat) : ∀ (ch : List Nat) (pos : Nat),
    pos + cs.length ≤ ch.length → ∀ j,
      (setSeq ch pos cs)[j]? =
        if pos ≤ j ∧ j < pos + cs.length then cs[j - pos]? else ch[j]? := by
  induction cs with
  | nil =>
      intro ch pos _ j
      rw [setSeq, if_neg (by simp only [List.length_nil]; omega)]
  | cons c cs ih =>
      intro ch pos hle j
      simp only [List.length_cons] at hle
      rw [setSeq, ih _ (pos + 1) (by rw [jsSetIdx_length _ _ _ (by omega)]; omega) j]
      by_cases h1 : pos + 1 ≤ j ∧ j < pos + 1 + cs.length
      · rw [if_pos h1, if_pos (by simp only [List.length_cons]; omega)]
        rw [show j - pos = (j - (pos + 1)) + 1 by omega, List.getElem?_cons_succ]
      · rw [if_neg h1, jsSetIdx_getElem _ _ _ (by omega)]
        by_cases h2 : j = pos
        · subst h2
          rw [if_pos rfl, if_pos (by simp only [List.length_cons]; omega), Nat.sub_self,
            List.getElem?_cons_zero]
        · rw [if_neg h2, if_neg (by simp only [List.length_cons]; omega)]

theorem getN_setN_self (st : Store) (i : Nat) (v : KNode) (h : i < st.length) :
    getN (setN st i v) i = v := by
  unfold getN setN
  rw [List.getD_eq_getElem?_getD, List.getElem?_set_self h]
  rfl

theorem getN_setN_ne (st : Store) (i : Nat) (v : KNode) (j : Nat) (h : j ≠ i) :
    getN (setN st i v) j = getN st j := by
  unfold getN setN
  rw [List.getD_eq_getElem?_getD, List.getElem?_set_ne (fun hx => h hx.symm),
    ← List.getD_eq_getElem?_getD]

theorem setN_length (st : Store) (i : Nat) (v : KNode) :
    (setN st i v).length = st.length := List.length_set st i v

/-- Pointwise effect of the promotion loop: the parent's child array gets
`cs` written at positions `i + idx, ...`; each child record is updated once;
everything else is untouched. -/
theorem promoteLoop_spec (pd : JsNum) (parIdx idx : Nat) :
    ∀ (cs : List Nat) (i : Nat) (st : Store),
      parIdx < st.length →
      (∀ c ∈ cs, c < st.length ∧ c ≠ parIdx) →
      cs.Nodup →
      (promoteLoop pd parIdx idx i cs st).length = st.length ∧
      getN (promoteLoop pd parIdx idx i cs st) parIdx =
        { getN st parIdx with child := setSeq (getN st parIdx).child (i + idx) cs } ∧
      (∀ c ∈ cs, getN (promoteLoop pd parIdx idx i cs st) c = promoteUpd pd parIdx (getN st c)) ∧
      (∀ j, j ≠ parIdx → j ∉ cs → getN (promoteLoop pd parIdx idx i cs st) j = getN st j) := by
  intro cs
  induction cs with
  | nil =>
      intro i st hpar _ _
      refine ⟨rfl, ?_, fun c hc => absurd hc (List.not_mem_nil c), fun j _ _ => rfl⟩
      show getN st parIdx = _
      rw [setSeq]
  | cons c cs ih =>
      intro i st hpar hmem hnd
      obtain ⟨hc1, hc2⟩ := hmem c (List.mem_cons_self c cs)
      rw [promoteLoop]
      simp only []
      set st1 := setN st c (promoteUpd pd parIdx (getN st c)) with hst1
      set parn := getN st1 parIdx with hparn
      set st2 := setN st1 parIdx { parn with child := jsSetIdx parn.child (i + idx) c } with hst2
      have hlen2 : st2.length = st.length := by
        rw [hst2, setN_length, hst1, setN_length]
      have hpar2 : parIdx < st2.length := by omega
      have hmem2 : ∀ x ∈ cs, x < st2.length ∧ x ≠ parIdx := by
        intro x hx
        obtain ⟨ha, hb⟩ := hmem x (List.mem_cons_of_mem c hx)
        exact ⟨by omega, hb⟩
      obtain ⟨ihl, ihp, ihc, ihj⟩ := ih (i + 1) st2 hpar2 hmem2 (List.Nodup.of_cons hnd)
      have hcnotin : c ∉ cs := (List.nodup_cons.1 hnd).1
      refine ⟨by omega, ?_, ?_, ?_⟩
      · rw [ihp]
        have hpar1 : parIdx < st1.length := by
          rw [hst1, setN_length]
          exact hpar
        have hg2 : getN st2 parIdx = { parn with child := jsSetIdx parn.child (i + idx) c } := by
          rw [hst2]
          exact getN_setN_self _ _ _ hpar1
        rw [hg2]
        simp only []
        rw [hparn, hst1, getN_setN_ne _ _ _ _ (Ne.symm hc2)]
        rw [setSeq]
        have : i + idx + 1 = i + 1 + idx := by omega
        rw [this]
      · intro x hx
        rcases List.mem_cons.1 hx with hxc | hxcs
        · subst hxc
          rw [ihj x hc2 hcnotin, hst2, getN_setN_ne _ _ _ _ hc2, hst1,
            getN_setN_self _ _ _ hc1]
        · rw [ihc x hxcs, hst2, getN_setN_ne _ _ _ _ (hmem x (List.mem_cons_of_mem c hxcs)).2,
            hst1, getN_setN_ne _ _ _ _ (fun hxe => hcnotin (by rw [← hxe]; exact hxcs))]
      · intro j hj1 hj2
        rw [ihj j hj1 (fun hx => hj2 (List.mem_cons_of_mem c hx)), hst2,
          getN_setN_ne _ _ _ _ hj1, hst1,
          getN_setN_ne _ _ _ _ (fun hx => hj2 (by rw [hx]; exact List.mem_cons_self c cs))]

theorem promoteUpd_fields (pd : JsNum) (parIdx : Nat) (n : KNode) :
    (promoteUpd pd parIdx n).parent = some parIdx ∧
    (promoteUpd pd parIdx n).d = (if jsGe0 n.d && jsGe0 pd then jsAdd n.d pd else n.d) ∧
    (promoteUpd pd parIdx n).child = n.child ∧
    (promoteUpd pd parIdx n).name = n.name ∧
    (promoteUpd pd parIdx n).meta = n.meta ∧
    (promoteUpd pd parIdx n).hl = n.hl ∧
    (promoteUpd pd parIdx n).hidden = n.hidden := by
  by_cases h : (jsGe0 n.d && jsGe0 pd) = true
  · simp [promoteUpd, h]
  · simp [promoteUpd, h]

/-- C6: `kn_multifurcate` is a no-op when `p` is a leaf or has no parent;
otherwise it replaces `p` in its parent's child sequence by `p`'s children
at `p`'s former position (preserving both the children's relative order and
the order of `p`'s former siblings), each promoted child is reparented and
its branch length is increased by `p`'s branch length exactly when both
values satisfy `>= 0`, and no other node record changes. -/
theorem c6_multifurcate_splices_children (st : Store) (p : Nat) :
    (((getN st p).child = [] ∨ (getN st p).parent = none) → kn_multifurcate st p = st) ∧
    (∀ par, (getN st p).parent = some par →
      (getN st p).child ≠ [] →
      par < st.length →
      p ∈ (getN st par).child →
      p ≠ par →
      (∀ c ∈ (getN st p).child, c < st.length ∧ c ≠ p ∧ c ≠ par) →
      (getN st p).child.Nodup →
      (kn_multifurcate st p).length = st.length ∧
      (getN (kn_multifurcate st p) par).child =
        (getN st par).child.take ((getN st par).child.findIdx (· == p)) ++
          (getN st p).child ++
          (getN st par).child.drop ((getN st par).child.findIdx (· == p) + 1) ∧
      (∀ x ∈ (getN st p).child,
        (getN (kn_multifurcate st p) x).parent = some par ∧
        (getN (kn_multifurcate st p) x).d =
          (if jsGe0 (getN st x).d && jsGe0 (getN st p).d then
            jsAdd (getN st x).d (getN st p).d else (getN st x).d) ∧
        (getN (kn_multifurcate st p) x).child = (getN st x).child ∧
        (getN (kn_multifurcate st p) x).name = (getN st x).name ∧
        (getN (kn_multifurcate st p) x).meta = (getN st x).meta ∧
        (getN (kn_multifurcate st p) x).hl = (getN st x).hl ∧
        (getN (kn_multifurcate st p) x).hidden = (getN st x).hidden) ∧
      (∀ j, j ≠ par → j ∉ (getN st p).child →
        getN (kn_multifurcate st p) j = getN st j)) := by
  constructor
  · intro hno
    rw [kn_multifurcate]
    simp only []
    rw [if_pos]
    rcases hno with hno | hno
    · exact Or.inl (by rw [hno]; rfl)
    · exact Or.inr hno
  · intro par hpar hpc hparlt hmem hppane hcs hnd
    have hguard : ¬((getN st p).child.length = 0 ∨ (getN st p).parent = none) := by
      rintro (hg | hg)
      · exact hpc (List.eq_nil_of_length_eq_zero hg)
      · rw [hpar] at hg
        cases hg
    rw [kn_multifurcate]
    simp only [hpar, hguard, if_neg hguard, Option.getD_some]
    set pc0 := (getN st par).child with hpc0
    set pc := (getN st p).child with hpcdef
    set idx := pc0.findIdx (· == p) with hidx
    set oldLen := pc0.length with holdLen
    set k := pc.length with hk
    have hk1 : 1 ≤ k := by
      rw [hk]
      cases hx : pc
      · exact absurd hx hpc
      · simp
    have hidxlt : idx < oldLen := by
      rw [hidx, holdLen]
      exact List.findIdx_lt_length_of_exists ⟨p, hmem, by simp⟩
    set newLen := oldLen + k - 1 with hnewLen
    have hON : oldLen ≤ newLen := by omega
    set arr := jsSetLength pc0 newLen with harr
    have harrlen : arr.length = newLen := jsSetLength_length pc0 newLen
    have hguard2 : ¬(k = 0 ∨ some par = none) := by
      rintro (hx | hx)
      · omega
      · cases hx
    rw [if_neg hguard2, shiftLoop, Nat.sub_zero]
    obtain ⟨hshl, hshg⟩ := shiftGo_spec oldLen newLen hON (oldLen - idx - 1) 0 arr harrlen (by omega)
    set child1 := shiftGo oldLen newLen (oldLen - idx - 1) 0 arr with hchild1
    set store1 := setN st par { getN st par with child := child1 } with hstore1
    have hs1len : store1.length = st.length := by
      rw [hstore1, setN_length]
    have hparlt1 : par < store1.length := by omega
    have hmem1 : ∀ c ∈ pc, c < store1.length ∧ c ≠ par := by
      intro c hc
      obtain ⟨h1, _, h3⟩ := hcs c hc
      exact ⟨by omega, h3⟩
    obtain ⟨hpl, hpp, hpcrec, hpj⟩ := promoteLoop_spec (getN st p).d par idx pc 0 store1 hparlt1 hmem1 hnd
    have hs1par : getN store1 par = { getN st par with child := child1 } := by
      rw [hstore1]
      exact getN_setN_self _ _ _ hparlt
    have hs1other : ∀ j, j ≠ par → getN store1 j = getN st j := by
      intro j hj
      rw [hstore1]
      exact getN_setN_ne _ _ _ _ hj
    refine ⟨by omega, ?_, ?_, ?_⟩
    · -- the parent's child array after the surgery
      rw [hpp, hs1par]
      simp only []
      have hsetlen : 0 + idx + pc.length ≤ child1.length := by
        rw [hshl]
        omega
      refine List.ext_getElem? fun j => ?_
      rw [setSeq_getElem pc child1 (0 + idx) hsetlen j]
      have hTlen : (pc0.take idx).length = idx := by
        rw [List.length_take]
        omega
      have hTMlen : (pc0.take idx ++ pc).length = idx + k := by
        rw [List.length_append, hTlen, ← hk]
      by_cases hA : j < idx
      · rw [if_neg (by omega), hshg j, if_neg (by omega), harr,
          jsSetLength_getElem pc0 newLen j (by omega) (by omega),
          List.getElem?_append_left (show j < (pc0.take idx ++ pc).length by rw [hTMlen]; omega),
          List.getElem?_append_left (show j < (pc0.take idx).length by rw [hTlen]; exact hA),
          List.getElem?_take_of_lt hA]
      · by_cases hB : j < idx + k
        · rw [if_pos (by omega),
            List.getElem?_append_left (show j < (pc0.take idx ++ pc).length by rw [hTMlen]; omega),
            List.getElem?_append_right (show (pc0.take idx).length ≤ j by rw [hTlen]; omega), hTlen]
          rw [show j - (0 + idx) = j - idx by omega]
        · rw [if_neg (by omega), hshg j]
          by_cases hC : j < newLen
          · rw [if_pos (by omega), harr,
              jsSetLength_getElem pc0 newLen (j - (newLen - oldLen)) (by omega) (by omega),
              List.getElem?_append_right (show (pc0.take idx ++ pc).length ≤ j by rw [hTMlen]; omega), hTMlen,
              List.getElem?_drop]
            congr 1
            omega
          · rw [if_neg (by omega), harr,
              List.getElem?_eq_none (by rw [jsSetLength_length]; omega),
              List.getElem?_eq_none]
            rw [List.length_append, hTMlen, List.length_drop]
            omega
    · intro x hx
      have hrec := hpcrec x hx
      rw [hrec, hs1other x (hmem1 x hx).2]
      exact promoteUpd_fields (getN st p).d par (getN st x)
    · intro j hj1 hj2
      rw [hpj j hj1 hj2, hs1other j hj1]

/-- Concrete store for the C6 witness: `((A:1,B:2)x:3,C)r;`. -/
def W6 : Store := (kn_parse "((A:1,B:2)x:3,C)r;".data).node

/-- Witness for C6: multifurcating `x` (node 2) in `((A:1,B:2)x:3,C)r;`
splices its children `[0, 1]` over its slot in the root's child list. -/
theorem c6_multifurcate_splices_children_witness :
    (getN (kn_multifurcate W6 2) 4).child =
      (getN W6 4).child.take ((getN W6 4).child.findIdx (· == 2)) ++
        (getN W6 2).child ++
        (getN W6 4).child.drop ((getN W6 4).child.findIdx (· == 2) + 1) :=
  ((c6_multifurcate_splices_children W6 2).2 4 (by decide) (by decide) (by decide)
    (by decide) (by decide) (by decide) (by decide)).2.1
/-! ### The two-child splice of `kn_remove_node` (claim C4) -/

theorem getN_append_lt (st : Store) (x : KNode) (j : Nat) (h : j < st.length) :
    getN (st ++ [x]) j = getN st j := by
  unfold getN
  rw [List.getD_eq_getElem?_getD, List.getElem?_append_left h, ← List.getD_eq_getElem?_getD]

theorem getN_append_self (st : Store) (x : KNode) :
    getN (st ++ [x]) st.length = x := by
  unfold getN
  rw [List.getD_eq_getElem?_getD, List.getElem?_append_right (Nat.le_refl _), Nat.sub_self]
  rfl

theorem anchor_length (st : Store) (r : Nat) :
    (anchor st r).length = st.length + 1 := by
  unfold anchor
  rw [setN_length, List.length_append]
  rfl

theorem getN_anchor_ne (st : Store) (r j : Nat) (hj : j < st.length) (hjr : j ≠ r) :
    getN (anchor st r) j = getN st j := by
  unfold anchor
  rw [getN_setN_ne _ _ _ _ hjr, getN_append_lt _ _ _ hj]

theorem getN_anchor_self (st : Store) (r : Nat) (hr : r < st.length) :
    getN (anchor st r) r = { getN st r with parent := some st.length } := by
  unfold anchor
  rw [getN_setN_self _ _ _ (by rw [List.length_append]; exact Nat.lt_succ_of_lt hr),
    getN_append_lt _ _ _ hr]

theorem getN_anchor_z (st : Store) (r : Nat) (hr : r ≠ st.length) :
    getN (anchor st r) st.length = { kn_new_node with child := [r] } := by
  unfold anchor
  rw [getN_setN_ne _ _ _ _ (Ne.symm hr), getN_append_self]

theorem spliceOut_length (st : Store) (pI qI rI : Nat) :
    (spliceOut st pI qI rI).length = st.length := by
  unfold spliceOut
  rw [setN_length, setN_length, setN_length]

theorem spliceOut_getN (st : Store) (pI qI rI : Nat)
    (hq : qI < st.length) (hp : pI < st.length) (hr : rI < st.length)
    (hqp : qI ≠ pI) (hqr : qI ≠ rI) (hpr : pI ≠ rI) :
    getN (spliceOut st pI qI rI) qI =
      { getN st qI with d := jsAdd (getN st qI).d (getN st pI).d, parent := some rI } ∧
    getN (spliceOut st pI qI rI) rI =
      { getN st rI with child := jsSetIdx (getN st rI).child ((getN st rI).child.findIdx (· == pI)) qI } ∧
    getN (spliceOut st pI qI rI) pI = { getN st pI with parent := none } ∧
    (∀ j, j ≠ qI → j ≠ rI → j ≠ pI → getN (spliceOut st pI qI rI) j = getN st j) := by
  unfold spliceOut
  refine ⟨?_, ?_, ?_, ?_⟩
  · rw [getN_setN_ne _ _ _ _ hqp, getN_setN_ne _ _ _ _ hqr, getN_setN_self _ _ _ hq]
  · rw [getN_setN_ne _ _ _ _ (Ne.symm hpr),
      getN_setN_self _ _ _ (by rw [setN_length]; exact hr),
      getN_setN_ne _ _ _ _ (Ne.symm hqr)]
  · rw [getN_setN_self _ _ _ (by rw [setN_length, setN_length]; exact hp),
      getN_setN_ne _ _ _ _ hpr, getN_setN_ne _ _ _ _ (Ne.symm hqp)]
  · intro j hjq hjr hjp
    rw [getN_setN_ne _ _ _ _ hjp, getN_setN_ne _ _ _ _ hjr, getN_setN_ne _ _ _ _ hjq]

/-- Characterization of the two-child splice path of `kn_remove_node`,
shared by the prune and regraft developments. -/
theorem remove_splice_spec
    (st : Store) (nodes : List Nat) (node rootI pp gp a b w : Nat)
    (hnodes : nodes.getLast? = some rootI)
    (hrlt : rootI < st.length)
    (hnr : node ≠ rootI)
    (hnlt : node < st.length)
    (hpar : (getN st node).parent = some pp)
    (hpplt : pp < st.length)
    (hppr : pp ≠ rootI)
    (hab : (getN st pp).child = [a, b])
    (hw : w = (if a = node then b else a))
    (hwlt : w < st.length)
    (hwpp : w ≠ pp) (hwgp : w ≠ gp) (hwr : w ≠ rootI)
    (hgp : (getN st pp).parent = some gp)
    (hgplt : gp < st.length)
    (hppgp : pp ≠ gp)
    (hppin : pp ∈ (getN st gp).child) :
    ∃ st', kn_remove_node st nodes node = .ok (st', some rootI) ∧
      st'.length = st.length + 1 ∧
      (getN st' w).d = jsAdd (getN st w).d (getN st pp).d ∧
      (getN st' w).parent = some gp ∧
      (getN st' gp).child =
        (getN st gp).child.set ((getN st gp).child.findIdx (· == pp)) w ∧
      (getN st' pp).parent = none ∧
      (getN st' rootI).parent = none ∧
      (∀ j, j < st.length → j ≠ w → j ≠ pp → j ≠ gp → j ≠ rootI →
        getN st' j = getN st j) := by
  have hzr : rootI ≠ st.length := Nat.ne_of_lt hrlt
  have hzw : st.length ≠ w := fun h => absurd hwlt (by rw [← h]; exact Nat.lt_irrefl _)
  have hzpp : st.length ≠ pp := fun h => absurd hpplt (by rw [← h]; exact Nat.lt_irrefl _)
  have hzgp : st.length ≠ gp := fun h => absurd hgplt (by rw [← h]; exact Nat.lt_irrefl _)
  have hnp : (getN (anchor st rootI) node).parent = some pp := by
    rw [getN_anchor_ne st rootI node hnlt hnr]; exact hpar
  have hpn : getN (anchor st rootI) pp = getN st pp := getN_anchor_ne st rootI pp hpplt hppr
  have hS := spliceOut_getN (anchor st rootI) pp w gp
    (by rw [anchor_length]; exact Nat.lt_succ_of_lt hwlt)
    (by rw [anchor_length]; exact Nat.lt_succ_of_lt hpplt)
    (by rw [anchor_length]; exact Nat.lt_succ_of_lt hgplt)
    hwpp hwgp hppgp
  obtain ⟨hSw, hSgp, hSpp, hSfr⟩ := hS
  have hSlen : (spliceOut (anchor st rootI) pp w gp).length = st.length + 1 := by
    rw [spliceOut_length, anchor_length]
  have h2w : getN (anchor st rootI) w = getN st w := getN_anchor_ne st rootI w hwlt hwr
  have hroot2 :
      ((getN (spliceOut (anchor st rootI) pp w gp) st.length).child.getD 0 0) = rootI := by
    rw [hSfr st.length hzw hzgp hzpp, getN_anchor_z st rootI hzr]
    rfl
  have hqsel : (([a, b] : List Nat).getD (1 - (if a = node then (0 : Nat) else 1)) 0) = w := by
    rw [hw]
    by_cases hx : a = node
    · rw [if_pos hx, if_pos hx]
      rfl
    · rw [if_neg hx, if_neg hx]
      rfl
  refine ⟨setN (spliceOut (anchor st rootI) pp w gp) rootI
    { getN (spliceOut (anchor st rootI) pp w gp) rootI with parent := none }, ?_, ?_, ?_, ?_, ?_, ?_, ?_, ?_⟩
  · unfold kn_remove_node
    rw [hnodes]
    dsimp only
    rw [if_neg hnr, hnp]
    dsimp only
    rw [hpn, hab, if_pos (by rfl : ([a, b] : List Nat).length = 2)]
    dsimp only [List.getD_cons_zero]
    rw [hqsel, hgp]
    dsimp only
    unfold unanchor
    rw [hroot2]
  · rw [setN_length, hSlen]
  · rw [getN_setN_ne _ _ _ _ hwr, hSw, h2w, hpn]
  · rw [getN_setN_ne _ _ _ _ hwr, hSw]
  · have hfi : ((getN st gp).child.findIdx (· == pp)) < (getN st gp).child.length :=
      List.findIdx_lt_length_of_exists ⟨pp, hppin, beq_self_eq_true pp⟩
    by_cases hgr : gp = rootI
    · subst hgr
      rw [getN_setN_self _ _ _ (by rw [hSlen]; exact Nat.lt_succ_of_lt hrlt)]
      simp only [hSgp, getN_anchor_self st gp hrlt]
      simp only [jsSetIdx]
      rw [if_pos hfi]
    · rw [getN_setN_ne _ _ _ _ hgr]
      simp only [hSgp, getN_anchor_ne st rootI gp hgplt hgr]
      simp only [jsSetIdx]
      rw [if_pos hfi]
  · rw [getN_setN_ne _ _ _ _ hppr, hSpp]
  · rw [getN_setN_self _ _ _ (by rw [hSlen]; exact Nat.lt_succ_of_lt hrlt)]
  · intro j hj hjw hjpp hjgp hjr
    rw [getN_setN_ne _ _ _ _ hjr, hSfr j hjw hjgp hjpp, getN_anchor_ne st rootI j hj hjr]

/-- C4 (amended): pruning a non-root `node` whose parent `pp` has exactly
the two children `[a, b]` and a grandparent `gp` splices `pp` out — the
surviving sibling `w` is re-parented to `gp` in `pp`'s slot — and the
sibling's branch length always becomes the plain JavaScript sum
`w.d + pp.d`: the `-1` "unspecified" sentinel participates in the
arithmetic (there is no sentinel check in `q.d += p.d`), so the claimed
"unspecified when either input is unspecified" rule does not hold. -/
theorem c4_remove_splices_two_child_parent
    (st : Store) (nodes : List Nat) (node rootI pp gp a b w : Nat)
    (hnodes : nodes.getLast? = some rootI)
    (hrlt : rootI < st.length)
    (hnr : node ≠ rootI)
    (hnlt : node < st.length)
    (hpar : (getN st node).parent = some pp)
    (hpplt : pp < st.length)
    (hppr : pp ≠ rootI)
    (hab : (getN st pp).child = [a, b])
    (hw : w = (if a = node then b else a))
    (hwlt : w < st.length)
    (hwpp : w ≠ pp) (hwgp : w ≠ gp) (hwr : w ≠ rootI)
    (hgp : (getN st pp).parent = some gp)
    (hgplt : gp < st.length)
    (hppgp : pp ≠ gp)
    (hppin : pp ∈ (getN st gp).child) :
    ∃ st', kn_remove_node st nodes node = .ok (st', some rootI) ∧
      (getN st' w).d = jsAdd (getN st w).d (getN st pp).d ∧
      (getN st' w).parent = some gp ∧
      (getN st' gp).child =
        (getN st gp).child.set ((getN st gp).child.findIdx (· == pp)) w ∧
      (getN st' pp).parent = none ∧
      (getN st' rootI).parent = none ∧
      (∀ j, j < st.length → j ≠ w → j ≠ pp → j ≠ gp → j ≠ rootI →
        getN st' j = getN st j) := by
  obtain ⟨st', heq, _, h1, h2, h3, h4, h5, h6⟩ :=
    remove_splice_spec st nodes node rootI pp gp a b w hnodes hrlt hnr hnlt hpar
      hpplt hppr hab hw hwlt hwpp hwgp hwr hgp hgplt hppgp hppin
  exact ⟨st', heq, h1, h2, h3, h4, h5, h6⟩

/-- The parsed store of `"((A:5,B),C);"`: `A = 0`, `B = 1`, `(A,B) = 2`,
`C = 3`, root `= 4`. -/
def W4 : Store := (kn_parse "((A:5,B),C);".data).node

theorem c4_remove_splices_two_child_parent_witness :
    ∃ st', kn_remove_node W4 (List.range 5) 1 = .ok (st', some 4) ∧
      (getN st' 0).d = jsAdd (getN W4 0).d (getN W4 2).d ∧
      (getN st' 0).parent = some 4 ∧
      (getN st' 4).child =
        (getN W4 4).child.set ((getN W4 4).child.findIdx (· == 2)) 0 ∧
      (getN st' 2).parent = none ∧
      (getN st' 4).parent = none ∧
      (∀ j, j < W4.length → j ≠ 0 → j ≠ 2 → j ≠ 4 → j ≠ 4 →
        getN st' j = getN W4 j) :=
  c4_remove_splices_two_child_parent W4 (List.range 5) 1 4 2 4 0 1 0
    (by decide) (by decide) (by decide) (by decide) (by decide) (by decide)
    (by decide) (by decide) (by decide) (by decide) (by decide) (by decide)
    (by decide) (by decide) (by decide) (by decide) (by decide)
/-! ### The regraft path of `kn_move_node` (claim C3) -/

theorem spliceIn_length (st : Store) (q rI : Nat) :
    (spliceIn st q rI).length = st.length + 1 := by
  unfold spliceIn
  rw [setN_length, List.length_append]
  rfl

theorem spliceIn_getN (st : Store) (q rI : Nat) (hr : rI < st.length) :
    getN (spliceIn st q rI) rI =
      { getN st rI with child := jsSetIdx (getN st rI).child ((getN st rI).child.findIdx (· == q)) st.length } ∧
    getN (spliceIn st q rI) st.length = { kn_new_node with parent := some rI } ∧
    (∀ j, j < st.length → j ≠ rI → getN (spliceIn st q rI) j = getN st j) := by
  unfold spliceIn
  refine ⟨?_, ?_, ?_⟩
  · rw [getN_setN_self _ _ _ (by rw [List.length_append]; exact Nat.lt_succ_of_lt hr),
      getN_append_lt _ _ _ hr]
  · rw [getN_setN_ne _ _ _ _ (Ne.symm (Nat.ne_of_lt hr)), getN_append_self]
  · intro j hj hjr
    rw [getN_setN_ne _ _ _ _ hjr, getN_append_lt _ _ _ hj]

theorem halveBranch_length (st : Store) (q sI : Nat) :
    (halveBranch st q sI).length = st.length := by
  unfold halveBranch
  by_cases h : jsGe0 (getN st q).d
  · rw [if_pos h, setN_length, setN_length]
  · rw [if_neg h]

theorem halveBranch_getN (st : Store) (q sI : Nat) (hq : q < st.length) (hs : sI < st.length)
    (hqs : q ≠ sI) :
    getN (halveBranch st q sI) sI =
      { getN st sI with d := if jsGe0 (getN st q).d then jsHalf (getN st q).d else (getN st sI).d } ∧
    getN (halveBranch st q sI) q =
      { getN st q with d := if jsGe0 (getN st q).d then jsHalf (getN st q).d else (getN st q).d } ∧
    (∀ j, j ≠ q → j ≠ sI → getN (halveBranch st q sI) j = getN st j) := by
  unfold halveBranch
  by_cases h : jsGe0 (getN st q).d
  · rw [if_pos h]
    refine ⟨?_, ?_, ?_⟩
    · rw [if_pos h, getN_setN_ne _ _ _ _ (Ne.symm hqs), getN_setN_self _ _ _ hs]
    · rw [if_pos h, getN_setN_self _ _ _ (by rw [setN_length]; exact hq),
        getN_setN_ne _ _ _ _ hqs]
    · intro j hjq hjs
      rw [getN_setN_ne _ _ _ _ hjq, getN_setN_ne _ _ _ _ hjs]
  · rw [if_neg h]
    exact ⟨by rw [if_neg h], by rw [if_neg h], fun j _ _ => rfl⟩

theorem adoptPQ_length (st : Store) (p q sI : Nat) :
    (adoptPQ st p q sI).length = st.length := by
  unfold adoptPQ
  rw [setN_length, setN_length, setN_length, setN_length]

theorem adoptPQ_getN (st : Store) (p q sI : Nat)
    (hp : p < st.length) (hq : q < st.length) (hs : sI < st.length)
    (hpq : p ≠ q) (hps : p ≠ sI) (hqs : q ≠ sI) :
    getN (adoptPQ st p q sI) sI =
      { getN st sI with child := (getN st sI).child ++ [p] ++ [q] } ∧
    getN (adoptPQ st p q sI) p = { getN st p with parent := some sI } ∧
    getN (adoptPQ st p q sI) q = { getN st q with parent := some sI } ∧
    (∀ j, j ≠ p → j ≠ q → j ≠ sI → getN (adoptPQ st p q sI) j = getN st j) := by
  unfold adoptPQ
  refine ⟨?_, ?_, ?_, ?_⟩
  · rw [getN_setN_ne _ _ _ _ (Ne.symm hqs),
      getN_setN_self _ _ _ (by rw [setN_length, setN_length]; exact hs),
      getN_setN_ne _ _ _ _ (Ne.symm hps), getN_setN_self _ _ _ hs]
  · rw [getN_setN_ne _ _ _ _ hpq,
      getN_setN_ne _ _ _ _ hps,
      getN_setN_self _ _ _ (by rw [setN_length]; exact hp),
      getN_setN_ne _ _ _ _ hps]
  · rw [getN_setN_self _ _ _ (by rw [setN_length, setN_length, setN_length]; exact hq),
      getN_setN_ne _ _ _ _ hqs, getN_setN_ne _ _ _ _ (Ne.symm hpq),
      getN_setN_ne _ _ _ _ hqs]
  · intro j hjp hjq hjs
    rw [getN_setN_ne _ _ _ _ hjq, getN_setN_ne _ _ _ _ hjs,
      getN_setN_ne _ _ _ _ hjp, getN_setN_ne _ _ _ _ hjs]

theorem moveAttach_spec (st1 : Store) (p q root1 rq : Nat)
    (hplt : p < st1.length) (hqlt : q < st1.length)
    (hrtlt : root1 < st1.length) (hrqlt : rq < st1.length)
    (hqp : q ≠ p) (hqroot : q ≠ root1) (hqrq : q ≠ rq)
    (hprq : p ≠ rq) (hproot : p ≠ root1) (hrqroot : rq ≠ root1)
    (hq1 : (getN st1 q).parent = some rq) :
    ∃ st'', moveAttach st1 p q root1 = .ok (st'', some root1) ∧
      (getN st'' (st1.length + 1)).child = [p, q] ∧
      (getN st'' (st1.length + 1)).parent = some rq ∧
      (getN st'' (st1.length + 1)).d =
        (if jsGe0 (getN st1 q).d then jsHalf (getN st1 q).d else jsNeg1) ∧
      (getN st'' p).parent = some (st1.length + 1) ∧
      (getN st'' q).parent = some (st1.length + 1) ∧
      (getN st'' q).d =
        (if jsGe0 (getN st1 q).d then jsHalf (getN st1 q).d else (getN st1 q).d) ∧
      (getN st'' rq).child =
        jsSetIdx (getN st1 rq).child ((getN st1 rq).child.findIdx (· == q)) (st1.length + 1) ∧
      (getN st'' root1).parent = none ∧
      (∀ j, j < st1.length → j ≠ p → j ≠ q → j ≠ rq → j ≠ root1 →
        getN st'' j = getN st1 j) := by
  have hAlen : (anchor st1 root1).length = st1.length + 1 := anchor_length st1 root1
  have hzq : st1.length ≠ q := fun h => absurd hqlt (by rw [← h]; exact Nat.lt_irrefl _)
  have hzp : st1.length ≠ p := fun h => absurd hplt (by rw [← h]; exact Nat.lt_irrefl _)
  have hzrq : st1.length ≠ rq := fun h => absurd hrqlt (by rw [← h]; exact Nat.lt_irrefl _)
  have hsq : st1.length + 1 ≠ q := fun h => absurd hqlt (by rw [← h]; omega)
  have hsp : st1.length + 1 ≠ p := fun h => absurd hplt (by rw [← h]; omega)
  have hsrq : st1.length + 1 ≠ rq := fun h => absurd hrqlt (by rw [← h]; omega)
  have hsroot : st1.length + 1 ≠ root1 := fun h => absurd hrtlt (by rw [← h]; omega)
  have hsz : st1.length + 1 ≠ st1.length := by omega
  have hqA : (getN (anchor st1 root1) q).parent = some rq := by
    rw [getN_anchor_ne st1 root1 q hqlt hqroot]
    exact hq1
  have hrqA : getN (anchor st1 root1) rq = getN st1 rq :=
    getN_anchor_ne st1 root1 rq hrqlt hrqroot
  obtain ⟨hS1r, hS1s, hS1fr⟩ :=
    spliceIn_getN (anchor st1 root1) q rq (by rw [hAlen]; omega)
  have hS1len : (spliceIn (anchor st1 root1) q rq).length = st1.length + 2 := by
    rw [spliceIn_length, hAlen]
  have hS1q : getN (spliceIn (anchor st1 root1) q rq) q = getN st1 q := by
    rw [hS1fr q (by rw [hAlen]; omega) hqrq, getN_anchor_ne st1 root1 q hqlt hqroot]
  obtain ⟨hS2s, hS2q, hS2fr⟩ :=
    halveBranch_getN (spliceIn (anchor st1 root1) q rq) q (anchor st1 root1).length
      (by rw [hS1len]; omega) (by rw [hS1len, hAlen]; omega) (by rw [hAlen]; exact Ne.symm hsq)
  have hS2len :
      (halveBranch (spliceIn (anchor st1 root1) q rq) q (anchor st1 root1).length).length =
        st1.length + 2 := by
    rw [halveBranch_length, hS1len]
  obtain ⟨hS3s, hS3p, hS3q, hS3fr⟩ :=
    adoptPQ_getN (halveBranch (spliceIn (anchor st1 root1) q rq) q (anchor st1 root1).length)
      p q (anchor st1 root1).length
      (by rw [hS2len]; omega) (by rw [hS2len]; omega) (by rw [hS2len, hAlen]; omega)
      (Ne.symm hqp) (by rw [hAlen]; exact Ne.symm hsp) (by rw [hAlen]; exact Ne.symm hsq)
  have hS3len :
      (adoptPQ (halveBranch (spliceIn (anchor st1 root1) q rq) q (anchor st1 root1).length)
        p q (anchor st1 root1).length).length = st1.length + 2 := by
    rw [adoptPQ_length, hS2len]
  have hroot2 :
      ((getN (adoptPQ (halveBranch (spliceIn (anchor st1 root1) q rq) q
          (anchor st1 root1).length) p q (anchor st1 root1).length) st1.length).child.getD 0 0) =
        root1 := by
    rw [hS3fr st1.length hzp hzq (by rw [hAlen]; exact Ne.symm hsz),
      hS2fr st1.length hzq (by rw [hAlen]; exact Ne.symm hsz),
      hS1fr st1.length (by rw [hAlen]; omega) hzrq,
      getN_anchor_z st1 root1 (Nat.ne_of_lt hrtlt)]
    rfl
  refine ⟨setN (adoptPQ (halveBranch (spliceIn (anchor st1 root1) q rq) q
      (anchor st1 root1).length) p q (anchor st1 root1).length) root1
      { getN (adoptPQ (halveBranch (spliceIn (anchor st1 root1) q rq) q
          (anchor st1 root1).length) p q (anchor st1 root1).length) root1 with parent := none },
    ?_, ?_, ?_, ?_, ?_, ?_, ?_, ?_, ?_, ?_⟩
  · unfold moveAttach
    dsimp only
    rw [hqA]
    dsimp only
    unfold unanchor
    rw [hroot2]
  · rw [getN_setN_ne _ _ _ _ hsroot, ← hAlen, hS3s, hS2s, hS1s]
    rfl
  · rw [getN_setN_ne _ _ _ _ hsroot, ← hAlen, hS3s, hS2s, hS1s]
  · rw [getN_setN_ne _ _ _ _ hsroot, ← hAlen, hS3s, hS2s, hS1s, hS1q]
    by_cases h : jsGe0 (getN st1 q).d
    · rw [if_pos h, if_pos h]
    · rw [if_neg h, if_neg h]
      rfl
  · rw [getN_setN_ne _ _ _ _ hproot, hS3p, hAlen]
  · rw [getN_setN_ne _ _ _ _ hqroot, hS3q, hAlen]
  · rw [getN_setN_ne _ _ _ _ hqroot, hS3q]
    show (getN (halveBranch (spliceIn (anchor st1 root1) q rq) q (anchor st1 root1).length) q).d =
      _
    rw [hS2q, hS1q]
  · rw [getN_setN_ne _ _ _ _ hrqroot,
      hS3fr rq (Ne.symm hprq) (Ne.symm hqrq) (by rw [hAlen]; exact Ne.symm hsrq),
      hS2fr rq (Ne.symm hqrq) (by rw [hAlen]; exact Ne.symm hsrq),
      hS1r, hrqA, hAlen]
  · rw [getN_setN_self _ _ _ (by rw [hS3len]; omega)]
  · intro j hj hjp hjq hjrq hjroot
    rw [getN_setN_ne _ _ _ _ hjroot,
      hS3fr j hjp hjq (by rw [hAlen]; omega),
      hS2fr j hjq (by rw [hAlen]; omega),
      hS1fr j (by rw [hAlen]; omega) hjrq,
      getN_anchor_ne st1 root1 j hj hjroot]

/-- C3 (amended): `kn_move_node` returns the failure signal (`null`, with
the store untouched) when `p` is the root or `p` is found on `q`'s parent
chain; in the remaining cases it does NOT always succeed (the prune step
crashes when `p`'s parent does not have exactly two children), but when
`p`'s parent `pp` does have exactly the two children `[a, b]` (with sibling
`w` and grandparent `gp`) and `q`, with parent `rq`, is clear of the nodes
touched by the prune, the regraft succeeds: a fresh node `s` (index
`st.length + 2`) takes `q`'s slot under `rq`, `s.child = [p, q]`, both are
re-parented to `s`, and `q`'s branch length is halved onto `s` exactly when
it is nonnegative. -/
theorem c3_move_fails_on_root_or_ancestor_else_regrafts
    (st : Store) (nodes : List Nat) (p q rootI : Nat)
    (hnodes : nodes.getLast? = some rootI) :
    (p = rootI → kn_move_node st nodes p q = .ok (st, none)) ∧
    (walkChain st p (st.length + 1) q = .ok true →
      kn_move_node st nodes p q = .ok (st, none)) ∧
    (∀ pp gp a b w rq,
      p ≠ rootI →
      walkChain st p (st.length + 1) q = .ok false →
      rootI < st.length →
      p < st.length →
      (getN st p).parent = some pp →
      pp < st.length →
      pp ≠ rootI →
      (getN st pp).child = [a, b] →
      w = (if a = p then b else a) →
      w < st.length →
      w ≠ pp → w ≠ gp → w ≠ rootI →
      (getN st pp).parent = some gp →
      gp < st.length →
      pp ≠ gp →
      pp ∈ (getN st gp).child →
      q < st.length →
      q ≠ p → q ≠ rootI → q ≠ w → q ≠ pp → q ≠ gp → q ≠ rq →
      (getN st q).parent = some rq →
      rq < st.length →
      p ≠ rq → rq ≠ rootI → rq ≠ w → rq ≠ pp → rq ≠ gp →
      ∃ st'', kn_move_node st nodes p q = .ok (st'', some rootI) ∧
        (getN st'' (st.length + 2)).child = [p, q] ∧
        (getN st'' (st.length + 2)).parent = some rq ∧
        (getN st'' (st.length + 2)).d =
          (if jsGe0 (getN st q).d then jsHalf (getN st q).d else jsNeg1) ∧
        (getN st'' p).parent = some (st.length + 2) ∧
        (getN st'' q).parent = some (st.length + 2) ∧
        (getN st'' q).d =
          (if jsGe0 (getN st q).d then jsHalf (getN st q).d else (getN st q).d) ∧
        (getN st'' rq).child =
          jsSetIdx (getN st rq).child ((getN st rq).child.findIdx (· == q)) (st.length + 2) ∧
        (getN st'' rootI).parent = none ∧
        (∀ j, j < st.length → j ≠ p → j ≠ q → j ≠ w → j ≠ pp → j ≠ gp → j ≠ rq →
          j ≠ rootI → getN st'' j = getN st j)) := by
  refine ⟨?_, ?_, ?_⟩
  · intro h
    unfold kn_move_node
    rw [hnodes]
    dsimp only
    rw [if_pos h]
  · intro hwalk
    unfold kn_move_node
    rw [hnodes]
    dsimp only
    by_cases h : p = rootI
    · rw [if_pos h]
    · rw [if_neg h, hwalk]
  · intro pp gp a b w rq hnr hwalk hrlt hnlt hpar hpplt hppr hab hw hwlt hwpp hwgp hwr
      hgp hgplt hppgp hppin hqlt hqp hqroot hqw hqpp hqgp hqrq hrqpar hrqlt hprq
      hrqroot hrqw hrqpp hrqgp
    obtain ⟨st1, heq1, hlen1, hwd, hwpar, hgpch, hpppar, hrootpar, hfr1⟩ :=
      remove_splice_spec st nodes p rootI pp gp a b w hnodes hrlt hnr hnlt hpar
        hpplt hppr hab hw hwlt hwpp hwgp hwr hgp hgplt hppgp hppin
    have hq_st1 : getN st1 q = getN st q := hfr1 q hqlt hqw hqpp hqgp hqroot
    have hrq_st1 : getN st1 rq = getN st rq := hfr1 rq hrqlt hrqw hrqpp hrqgp hrqroot
    obtain ⟨st'', heq2, h1, h2, h3, h4, h5, h6, h7, h8, h9⟩ :=
      moveAttach_spec st1 p q rootI rq
        (by rw [hlen1]; omega) (by rw [hlen1]; omega)
        (by rw [hlen1]; omega) (by rw [hlen1]; omega)
        hqp hqroot hqrq hprq hnr hrqroot
        (by rw [hq_st1]; exact hrqpar)
    have hsI : st1.length + 1 = st.length + 2 := by rw [hlen1]
    refine ⟨st'', ?_, ?_, ?_, ?_, ?_, ?_, ?_, ?_, ?_, ?_⟩
    · unfold kn_move_node
      rw [hnodes]
      dsimp only
      rw [if_neg hnr, hwalk]
      dsimp only
      rw [heq1]
      dsimp only
      exact heq2
    · rw [← hsI]
      exact h1
    · rw [← hsI]
      exact h2
    · rw [← hsI, ← hq_st1]
      exact h3
    · rw [← hsI]
      exact h4
    · rw [← hsI]
      exact h5
    · rw [← hq_st1]
      exact h6
    · rw [← hsI, ← hrq_st1]
      exact h7
    · exact h8
    · intro j hj hjp hjq hjw hjpp hjgp hjrq hjroot
      rw [h9 j (by rw [hlen1]; omega) hjp hjq hjrq hjroot,
        hfr1 j hj hjw hjpp hjgp hjroot]

/-- The parsed store of `"((A,B)n,(C,D)m)r;"`: `A = 0`, `B = 1`, `n = 2`,
`C = 3`, `D = 4`, `m = 5`, root `r = 6`. -/
def W3 : Store := (kn_parse "((A,B)n,(C,D)m)r;".data).node

theorem c3_move_fails_on_root_or_ancestor_else_regrafts_witness :
    ∃ st'', kn_move_node W3 (List.range 7) 0 3 = .ok (st'', some 6) ∧
      (getN st'' (W3.length + 2)).child = [0, 3] ∧
      (getN st'' (W3.length + 2)).parent = some 5 ∧
      (getN st'' (W3.length + 2)).d =
        (if jsGe0 (getN W3 3).d then jsHalf (getN W3 3).d else jsNeg1) ∧
      (getN st'' 0).parent = some (W3.length + 2) ∧
      (getN st'' 3).parent = some (W3.length + 2) ∧
      (getN st'' 3).d =
        (if jsGe0 (getN W3 3).d then jsHalf (getN W3 3).d else (getN W3 3).d) ∧
      (getN st'' 5).child =
        jsSetIdx (getN W3 5).child ((getN W3 5).child.findIdx (· == 3)) (W3.length + 2) ∧
      (getN st'' 6).parent = none ∧
      (∀ j, j < W3.length → j ≠ 0 → j ≠ 3 → j ≠ 1 → j ≠ 2 → j ≠ 6 → j ≠ 5 →
        j ≠ 6 → getN st'' j = getN W3 j) :=
  (c3_move_fails_on_root_or_ancestor_else_regrafts W3 (List.range 7) 0 3 6
      (by decide)).2.2 2 6 0 1 1 5
    (by decide) (by decide) (by decide) (by decide) (by decide) (by decide)
    (by decide) (by decide) (by decide) (by decide) (by decide) (by decide)
    (by decide) (by decide) (by decide) (by decide) (by decide) (by decide)
    (by decide) (by decide) (by decide) (by decide) (by decide) (by decide)
    (by decide) (by decide) (by decide) (by decide) (by decide) (by decide)
    (by decide)
/-! ### Machine simulation for the flattener (claim C7) -/

mutual

theorem expandRun_tree (store : Store) (t : ITree) (hs : shapeB store t = true)
    (fuel : Nat) (rest : List (Nat × Nat)) (acc : List Nat) :
    expandRun store (tFuel store t + fuel) ((treeIdx t, 0) :: rest) acc =
      (match rest with
       | [] => some (acc ++ visPost store t)
       | (q, j) :: r => expandRun store fuel ((q, j + 1) :: r) (acc ++ visPost store t)) := by
  match t with
  | .node p cs =>
    simp only [shapeB, Bool.and_eq_true, beq_iff_eq] at hs
    obtain ⟨hch, hsf⟩ := hs
    cases hh : (getN store p).hidden with
    | true =>
      simp only [treeIdx, tFuel, hh, if_pos, visPost]
      rw [Nat.add_comm 1 fuel]
      simp only [expandRun]
      rw [if_neg (by simp [hh])]
      cases rest with
      | nil => simp
      | cons f r => rfl
    | false =>
      simp only [treeIdx, tFuel, hh, if_neg, visPost]
      have hhid : (getN store p).hidden = false := hh
      have hrun := expandRun_forest store cs hsf p 0
        (by rw [List.drop_zero]; exact hch) (Nat.zero_le _) hhid fuel rest acc
      simp only [Bool.false_eq_true, if_false, List.append_assoc] at hrun ⊢
      exact hrun
  termination_by sizeOf t

theorem expandRun_forest (store : Store) (cs : IForest) (hs : shapeF store cs = true)
    (p i : Nat) (hdrop : (getN store p).child.drop i = forestIdx cs)
    (hile : i ≤ (getN store p).child.length)
    (hhid : (getN store p).hidden = false)
    (fuel : Nat) (rest : List (Nat × Nat)) (acc : List Nat) :
    expandRun store (fFuel store cs + 1 + fuel) ((p, i) :: rest) acc =
      (match rest with
       | [] => some (acc ++ visPostF store cs ++ [p])
       | (q, j) :: r => expandRun store fuel ((q, j + 1) :: r) (acc ++ visPostF store cs ++ [p])) := by
  match cs with
  | .fnil =>
    have hlen : i = (getN store p).child.length := by
      have hge : (getN store p).child.length ≤ i := by
        by_contra hcon
        have hne : (getN store p).child.drop i ≠ [] := by
          simp only [ne_eq, List.drop_eq_nil_iff]
          omega
        exact hne (by rw [hdrop]; rfl)
      omega
    simp only [fFuel, visPostF, Nat.zero_add, List.append_nil]
    rw [Nat.add_comm 1 fuel]
    simp only [expandRun]
    rw [if_neg (by simp [hlen])]
  | .fcons t ts =>
    simp only [shapeF, Bool.and_eq_true] at hs
    obtain ⟨hst, hsts⟩ := hs
    have hsome : (getN store p).child[i]? = some (treeIdx t) := by
      have h0 : ((getN store p).child.drop i)[0]? = some (treeIdx t) := by
        rw [hdrop]; simp [forestIdx]
      rw [List.getElem?_drop, Nat.add_zero] at h0
      exact h0
    have hilt : i < (getN store p).child.length := by
      by_contra hcon
      rw [List.getElem?_eq_none (by omega)] at hsome
      exact Option.noConfusion hsome
    have hgetD : (getN store p).child.getD i 0 = treeIdx t := by
      rw [List.getD_eq_getElem?_getD, hsome]
      rfl
    have hdrop' : (getN store p).child.drop (i + 1) = forestIdx ts := by
      have h1 : List.drop 1 ((getN store p).child.drop i) = forestIdx ts := by
        rw [hdrop]; simp [forestIdx]
      rw [List.drop_drop] at h1
      exact h1
    have harith : fFuel store (.fcons t ts) + 1 + fuel =
        tFuel store t + (fFuel store ts + 1 + fuel) + 1 := by
      simp only [fFuel]
      omega
    rw [harith]
    simp only [expandRun]
    rw [if_pos ⟨by omega, by simp [hhid]⟩, hgetD,
      expandRun_tree store t hst (fFuel store ts + 1 + fuel) ((p, i) :: rest) acc]
    show expandRun store (fFuel store ts + 1 + fuel) ((p, i + 1) :: rest) (acc ++ visPost store t) = _
    rw [expandRun_forest store ts hsts p (i + 1) hdrop' (by omega) hhid fuel rest
      (acc ++ visPost store t)]
    cases rest with
    | nil =>
      simp only [visPostF, List.append_assoc]
    | cons f r =>
      simp only [visPostF, List.append_assoc]
  termination_by sizeOf cs

end

/-- C7: for a root whose pointer graph unfolds to the rose tree `t`, the
flattener returns exactly the postorder-with-collapse sequence `visPost`:
children of a non-collapsed node appear (in order) before the node, the
root is last, and a collapsed (`hidden`) node contributes itself and none
of its descendants.  The store is read-only to `kn_expand_node`, so the
collapsed node's children stay linked in the pointer graph.  The trailing
conjuncts restate `visPost`'s one-step laws, so the equality is the claimed
property. -/
theorem c7_expand_node_postorder_with_collapsed
    (store : Store) (root fuel : Nat) (t : ITree)
    (hs : shapeB store t = true) (hroot : treeIdx t = root)
    (hfuel : tFuel store t ≤ fuel) :
    kn_expand_node fuel store root = some (visPost store t) ∧
    (visPost store t).getLast? = some root ∧
    (∀ p cs, (getN store p).hidden = true → visPost store (.node p cs) = [p]) ∧
    (∀ p cs, (getN store p).hidden = false →
      visPost store (.node p cs) = visPostF store cs ++ [p]) ∧
    (∀ t2 ts, visPostF store (.fcons t2 ts) = visPost store t2 ++ visPostF store ts) := by
  refine ⟨?_, ?_, ?_, ?_, ?_⟩
  · unfold kn_expand_node
    have h := expandRun_tree store t hs (fuel - tFuel store t) [] []
    rw [hroot] at h
    have harith : tFuel store t + (fuel - tFuel store t) = fuel := by omega
    rw [harith] at h
    simpa using h
  · rw [← hroot]
    cases t with
    | node p cs => simp [visPost, treeIdx, List.getLast?_concat]
  · intro p cs h
    simp [visPost, h]
  · intro p cs h
    simp [visPost, h]
  · intro t2 ts
    rfl

/-- The parsed store of `"((A,B)n,C)r;"` with the internal node `n`
(index 2) collapsed: `A = 0`, `B = 1`, `n = 2`, `C = 3`, root `r = 4`. -/
def W7 : Store :=
  setN (kn_parse "((A,B)n,C)r;".data).node 2
    { getN (kn_parse "((A,B)n,C)r;".data).node 2 with hidden := true }

/-- The rose tree unfolding `W7`'s pointer graph from the root. -/
def T7 : ITree :=
  .node 4 (.fcons (.node 2 (.fcons (.node 0 .fnil) (.fcons (.node 1 .fnil) .fnil)))
    (.fcons (.node 3 .fnil) .fnil))

theorem c7_expand_node_postorder_with_collapsed_witness :
    kn_expand_node 12 W7 4 = some (visPost W7 T7) ∧
    (visPost W7 T7).getLast? = some 4 ∧
    (∀ p cs, (getN W7 p).hidden = true → visPost W7 (.node p cs) = [p]) ∧
    (∀ p cs, (getN W7 p).hidden = false →
      visPost W7 (.node p cs) = visPostF W7 cs ++ [p]) ∧
    (∀ t2 ts, visPostF W7 (.fcons t2 ts) = visPost W7 t2 ++ visPostF W7 ts) :=
  c7_expand_node_postorder_with_collapsed W7 4 12 T7 (by decide) (by decide) (by decide)
/-! ### The depth-step invariant of the postorder sequence (claim C8) -/

theorem chainStepB_spec (l : List Nat) (h : chainStepB l = true) :
    ∀ i, i + 1 < l.length → l.getD i 0 ≤ l.getD (i + 1) 0 + 1 := by
  induction l with
  | nil => intro i hi; simp at hi
  | cons a l ih =>
    match l with
    | [] => intro i hi; simp at hi
    | b :: r =>
      rw [chainStepB, Bool.and_eq_true, decide_eq_true_eq] at h
      intro i hi
      match i with
      | 0 => exact h.1
      | i + 1 =>
        rw [List.getD_cons_succ, List.getD_cons_succ]
        exact ih h.2 i (by simpa using hi)

theorem chainStepB_append (xs ys : List Nat) (hx : chainStepB xs = true)
    (hy : chainStepB ys = true)
    (hj : ∀ a b, xs.getLast? = some a → ys.head? = some b → a ≤ b + 1) :
    chainStepB (xs ++ ys) = true := by
  induction xs with
  | nil => simpa using hy
  | cons a xs ih =>
    match xs with
    | [] =>
      match ys with
      | [] => simpa using hx
      | b :: r =>
        show chainStepB (a :: b :: r) = true
        rw [chainStepB, Bool.and_eq_true, decide_eq_true_eq]
        exact ⟨hj a b rfl rfl, hy⟩
    | c :: xs' =>
      rw [chainStepB, Bool.and_eq_true, decide_eq_true_eq] at hx
      show chainStepB (a :: ((c :: xs') ++ ys)) = true
      have hrec := ih hx.2 (by intro a2 b2 hga hgb; exact hj a2 b2 (by rw [List.getLast?_cons_cons]; exact hga) hgb)
      rw [List.cons_append, chainStepB, Bool.and_eq_true, decide_eq_true_eq]
      exact ⟨hx.1, by rw [← List.cons_append]; exact hrec⟩

mutual

theorem chainD_tree (store : Store) (lvl : Nat) (t : ITree) :
    chainStepB ((visPostD store lvl t).map Prod.snd) = true ∧
    (∀ x ∈ (visPostD store lvl t).map Prod.snd, lvl ≤ x) ∧
    ((visPostD store lvl t).map Prod.snd).getLast? = some lvl := by
  match t with
  | .node p cs =>
    rw [visPostD]
    cases hh : (getN store p).hidden with
    | true =>
      simp only [if_pos, List.nil_append, List.map_cons, List.map_nil]
      refine ⟨rfl, ?_, rfl⟩
      intro x hx
      simp at hx
      omega
    | false =>
      simp only [Bool.false_eq_true, if_false, List.map_append, List.map_cons, List.map_nil]
      obtain ⟨hc, hall, hlast⟩ := chainD_forest store (lvl + 1) cs
      refine ⟨?_, ?_, ?_⟩
      · apply chainStepB_append _ [lvl] hc (by rfl)
        intro a b hga hgb
        have hb : b = lvl := by
          have : some b = some lvl := by rw [← hgb]; rfl
          exact Option.some.inj this
        rcases hlast with hnil | hsome
        · rw [hnil] at hga
          exact Option.noConfusion hga
        · have ha : a = lvl + 1 := Option.some.inj (hga.symm.trans hsome)
          omega
      · intro x hx
        rw [List.mem_append] at hx
        rcases hx with hx | hx
        · have := hall x hx
          omega
        · simp at hx
          omega
      · exact List.getLast?_concat _
  termination_by sizeOf t

theorem chainD_forest (store : Store) (lvl : Nat) (cs : IForest) :
    chainStepB ((visPostDF store lvl cs).map Prod.snd) = true ∧
    (∀ x ∈ (visPostDF store lvl cs).map Prod.snd, lvl ≤ x) ∧
    ((visPostDF store lvl cs).map Prod.snd = [] ∨
      ((visPostDF store lvl cs).map Prod.snd).getLast? = some lvl) := by
  match cs with
  | .fnil =>
    exact ⟨rfl, by intro x hx; simp [visPostDF] at hx, Or.inl (by rw [visPostDF]; rfl)⟩
  | .fcons t ts =>
    rw [visPostDF]
    obtain ⟨hct, hallt, hlastt⟩ := chainD_tree store lvl t
    obtain ⟨hcf, hallf, hlastf⟩ := chainD_forest store lvl ts
    simp only [List.map_append]
    refine ⟨?_, ?_, ?_⟩
    · apply chainStepB_append _ _ hct hcf
      intro a b hga hgb
      have ha : a = lvl := Option.some.inj (hga.symm.trans hlastt)
      have hb : lvl ≤ b := hallf b (List.mem_of_mem_head? hgb)
      omega
    · intro x hx
      rw [List.mem_append] at hx
      rcases hx with hx | hx
      · exact hallt x hx
      · exact hallf x hx
    · rcases hlastf with hnil | hsome
      · rw [hnil, List.append_nil]
        exact Or.inr hlastt
      · refine Or.inr ?_
        rw [List.getLast?_append_of_ne_nil]
        · exact hsome
        · intro hcon
          rw [hcon] at hsome
          exact Option.noConfusion hsome
  termination_by sizeOf cs

end

mutual

theorem visPostD_fst (store : Store) (lvl : Nat) (t : ITree) :
    (visPostD store lvl t).map Prod.fst = visPost store t := by
  match t with
  | .node p cs =>
    rw [visPostD, visPost]
    cases hh : (getN store p).hidden with
    | true => simp
    | false =>
      simp only [Bool.false_eq_true, if_false, List.map_append, List.map_cons, List.map_nil]
      rw [visPostDF_fst store (lvl + 1) cs]
  termination_by sizeOf t

theorem visPostDF_fst (store : Store) (lvl : Nat) (cs : IForest) :
    (visPostDF store lvl cs).map Prod.fst = visPostF store cs := by
  match cs with
  | .fnil => rfl
  | .fcons t ts =>
    rw [visPostDF, visPostF, List.map_append, visPostD_fst store lvl t,
      visPostDF_fst store lvl ts]
  termination_by sizeOf cs

end

/-- C8: on the flattener's sequence with the serializer's depth assignment
(root depth 0, child depth = parent depth + 1, restated by the third
conjunct), the depth of consecutive entries never decreases by more than
one: `depth[i] ≤ depth[i+1] + 1` for every index — so the serializer's
single closing parenthesis per depth decrease always suffices. -/
theorem c8_postorder_depth_drops_at_most_one
    (store : Store) (root fuel : Nat) (t : ITree)
    (hs : shapeB store t = true) (hroot : treeIdx t = root)
    (hfuel : tFuel store t ≤ fuel) :
    kn_expand_node fuel store root = some ((visPostD store 0 t).map Prod.fst) ∧
    (∀ p cs lvl, (getN store p).hidden = false →
      visPostD store lvl (.node p cs) = visPostDF store (lvl + 1) cs ++ [(p, lvl)]) ∧
    (∀ i, i + 1 < (visPostD store 0 t).length →
      ((visPostD store 0 t).map Prod.snd).getD i 0 ≤
        ((visPostD store 0 t).map Prod.snd).getD (i + 1) 0 + 1) := by
  refine ⟨?_, ?_, ?_⟩
  · rw [visPostD_fst]
    unfold kn_expand_node
    have h := expandRun_tree store t hs (fuel - tFuel store t) [] []
    rw [hroot] at h
    have harith : tFuel store t + (fuel - tFuel store t) = fuel := by omega
    rw [harith] at h
    simpa using h
  · intro p cs lvl h
    simp [visPostD, h]
  · intro i hi
    exact chainStepB_spec _ (chainD_tree store 0 t).1 i
      (by rw [List.length_map]; exact hi)

theorem c8_postorder_depth_drops_at_most_one_witness :
    kn_expand_node 12 W7 4 = some ((visPostD W7 0 T7).map Prod.fst) ∧
    (∀ p cs lvl, (getN W7 p).hidden = false →
      visPostD W7 lvl (.node p cs) = visPostDF W7 (lvl + 1) cs ++ [(p, lvl)]) ∧
    (∀ i, i + 1 < (visPostD W7 0 T7).length →
      ((visPostD W7 0 T7).map Prod.snd).getD i 0 ≤
        ((visPostD W7 0 T7).map Prod.snd).getD (i + 1) 0 + 1) :=
  c8_postorder_depth_drops_at_most_one W7 4 12 T7 (by decide) (by decide) (by decide)
/-! ### Fuel-independence of the parser loop and loop-level steps (claim C1) -/

theorem getElem_at_append (pre : List Char) (c : Char) (rest : List Char)
    (h : pre.length < (pre ++ c :: rest).length) :
    (pre ++ c :: rest)[pre.length] = c := by
  rw [List.getElem_append_right (Nat.le_refl pre.length)]
  simp

theorem parseGo_congr (s : List Char) (f1 : Nat) :
    ∀ f2 l ps, s.length - l < f1 → s.length - l < f2 →
      parseGo s f1 l ps = parseGo s f2 l ps := by
  induction f1 with
  | zero => intro f2 l ps h1 h2; omega
  | succ f1 ih =>
    intro f2 l ps h1 h2
    match f2, h2 with
    | f2 + 1, h2 =>
      by_cases h : l < s.length
      · by_cases hp : printable s[l] = true
        · by_cases hcm : s[l] = ','
          · rw [parseGo_step_comma s f1 l ps h hp hcm, parseGo_step_comma s f2 l ps h hp hcm]
            exact ih f2 (l + 1) ps (by omega) (by omega)
          · by_cases hop : s[l] = '('
            · rw [parseGo_step_open s f1 l ps h hp hop, parseGo_step_open s f2 l ps h hp hop]
              exact ih f2 (l + 1) _ (by omega) (by omega)
            · by_cases hcl : s[l] = ')'
              · cases hstk : ps.stack.dropWhile (fun v => 0 ≤ v) with
                | nil =>
                  rw [parseGo_step_close_break s f1 l ps h hp hcl hstk,
                    parseGo_step_close_break s f2 l ps h hp hcl hstk]
                | cons m rest =>
                  rw [parseGo_step_close s f1 l ps h hp hcl m rest hstk,
                    parseGo_step_close s f2 l ps h hp hcl m rest hstk]
                  have hge := kn_add_node_ge s (l + 1) ps.error
                  have hle := kn_add_node_le s (l + 1) ps.error (by omega)
                  exact ih f2 _ _ (by omega) (by omega)
              · rw [parseGo_step_leaf s f1 l ps h hp hcm hop hcl,
                  parseGo_step_leaf s f2 l ps h hp hcm hop hcl]
                have hgt := kn_add_node_gt s l ps.error h (by
                  intro hx
                  rcases hx with hx | hx
                  · exact hcm hx
                  · exact hcl hx)
                have hle := kn_add_node_le s l ps.error (by omega)
                exact ih f2 _ _ (by omega) (by omega)
        · rw [parseGo_step_ws s f1 l ps h hp, parseGo_step_ws s f2 l ps h hp]
          exact ih f2 (l + 1) ps (by omega) (by omega)
      · rw [parseGo_step_end s f1 l ps h, parseGo_step_end s f2 l ps h]

theorem parseLoop_congr (s : List Char) (f : Nat) (l : Nat) (ps : PState)
    (hf : s.length - l < f) :
    parseGo s f l ps = parseLoop s l ps :=
  parseGo_congr s f (s.length + 1) l ps hf (by omega)

theorem parseLoop_end (s : List Char) (l : Nat) (ps : PState) (h : ¬ l < s.length) :
    parseLoop s l ps = { ps with pos := l } :=
  parseGo_step_end s s.length l ps h

theorem parseLoop_step_ws (s : List Char) (l : Nat) (ps : PState)
    (h : l < s.length) (hc : ¬ printable (s[l]) = true) :
    parseLoop s l ps = parseLoop s (l + 1) ps := by
  rw [parseLoop, parseGo_step_ws s s.length l ps h hc]
  exact parseLoop_congr s s.length (l + 1) ps (by omega)

theorem parseLoop_step_comma (s : List Char) (l : Nat) (ps : PState)
    (h : l < s.length) (hp : printable (s[l]) = true) (hc : s[l] = ',') :
    parseLoop s l ps = parseLoop s (l + 1) ps := by
  rw [parseLoop, parseGo_step_comma s s.length l ps h hp hc]
  exact parseLoop_congr s s.length (l + 1) ps (by omega)

theorem parseLoop_step_open (s : List Char) (l : Nat) (ps : PState)
    (h : l < s.length) (hp : printable (s[l]) = true) (hc : s[l] = '(') :
    parseLoop s l ps = parseLoop s (l + 1) { ps with stack := (-1) :: ps.stack } := by
  rw [parseLoop, parseGo_step_open s s.length l ps h hp hc]
  exact parseLoop_congr s s.length (l + 1) _ (by omega)

theorem parseLoop_step_close (s : List Char) (l : Nat) (ps : PState)
    (h : l < s.length) (hp : printable (s[l]) = true)
    (hc : s[l] = ')') (m : Int) (rest : List Int)
    (hstk : ps.stack.dropWhile (fun v => 0 ≤ v) = m :: rest) :
    parseLoop s l ps =
      parseLoop s (kn_add_node s (l + 1) ps.error).2.2
        { nodes := setParents
            (ps.nodes ++ [{ (kn_add_node s (l + 1) ps.error).1 with
              child := ((ps.stack.takeWhile (fun v => 0 ≤ v)).map Int.toNat).reverse }])
            ps.nodes.length
            ((ps.stack.takeWhile (fun v => 0 ≤ v)).map Int.toNat).reverse,
          stack := (ps.nodes.length : Int) :: rest,
          error := (kn_add_node s (l + 1) ps.error).2.1,
          n_tips := ps.n_tips,
          pos := (kn_add_node s (l + 1) ps.error).2.2 } := by
  rw [parseLoop, parseGo_step_close s s.length l ps h hp hc m rest hstk]
  have hge := kn_add_node_ge s (l + 1) ps.error
  exact parseLoop_congr s s.length _ _ (by omega)

theorem parseLoop_step_leaf (s : List Char) (l : Nat) (ps : PState)
    (h : l < s.length) (hp : printable (s[l]) = true)
    (hc1 : ¬ s[l] = ',') (hc2 : ¬ s[l] = '(') (hc3 : ¬ s[l] = ')') :
    parseLoop s l ps =
      parseLoop s (kn_add_node s l ps.error).2.2
        { nodes := ps.nodes ++ [(kn_add_node s l ps.error).1],
          stack := (ps.nodes.length : Int) :: ps.stack,
          error := (kn_add_node s l ps.error).2.1,
          n_tips := ps.n_tips + 1,
          pos := (kn_add_node s l ps.error).2.2 } := by
  rw [parseLoop, parseGo_step_leaf s s.length l ps h hp hc1 hc2 hc3]
  have hgt := kn_add_node_gt s l ps.error h (by
    intro hx
    rcases hx with hx | hx
    · exact hc1 hx
    · exact hc3 hx)
  exact parseLoop_congr s s.length _ _ (by omega)

theorem parseLoop_skip_ws (s : List Char) (ws : List Char) :
    ∀ (pre rest : List Char), s = pre ++ ws ++ rest →
      ws.all (fun c => !printable c) = true →
      ∀ ps, parseLoop s pre.length ps = parseLoop s (pre.length + ws.length) ps := by
  induction ws with
  | nil =>
    intro pre rest hs hws ps
    rfl
  | cons c ws ih =>
    intro pre rest hs hws ps
    rw [List.all_cons, Bool.and_eq_true] at hws
    have hlen : pre.length < s.length := by
      rw [hs]
      simp only [List.length_append, List.length_cons]
      omega
    have hat : s[pre.length] = c := by
      have hseq : s = pre ++ c :: (ws ++ rest) := by rw [hs]; simp
      rw [List.getElem_of_eq hseq hlen]
      exact getElem_at_append pre c (ws ++ rest) (by rw [← hseq]; exact hlen)
    rw [parseLoop_step_ws s pre.length ps hlen (by rw [hat]; simpa using hws.1)]
    have hs2 : s = (pre ++ [c]) ++ ws ++ rest := by rw [hs]; simp
    have hrec := ih (pre ++ [c]) rest hs2 hws.2 ps
    rw [List.length_append] at hrec
    simp only [List.length_cons, List.length_nil, List.length_cons] at hrec ⊢
    rw [hrec]
    congr 1
    omega
/-! ### Decimal printing and parsing round trip (claim C1) -/

theorem foldl_digits_from (l : List Char) :
    ∀ x : Nat, l.foldl (fun acc c => 10 * acc + (c.toNat - 48)) x =
      x * 10 ^ l.length + l.foldl (fun acc c => 10 * acc + (c.toNat - 48)) 0 := by
  induction l with
  | nil => intro x; simp
  | cons c r ih =>
    intro x
    rw [List.foldl_cons, List.foldl_cons, ih (10 * x + (c.toNat - 48)),
      ih (10 * 0 + (c.toNat - 48))]
    simp only [List.length_cons]
    ring

theorem digitsVal_append (a b : List Char) :
    digitsVal (a ++ b) = digitsVal a * 10 ^ b.length + digitsVal b := by
  rw [digitsVal, digitsVal, digitsVal, List.foldl_append, foldl_digits_from b]

theorem digitsVal_replicate_zero (k : Nat) (l : List Char) :
    digitsVal (List.replicate k '0' ++ l) = digitsVal l := by
  rw [digitsVal_append]
  have hz : digitsVal (List.replicate k '0') = 0 := by
    induction k with
    | zero => rfl
    | succ k ih =>
      rw [List.replicate_succ, digitsVal, List.foldl_cons, foldl_digits_from]
      rw [digitsVal] at ih
      rw [ih]
      norm_num
      decide
  rw [hz, Nat.zero_mul, Nat.zero_add]

theorem char_digit_toNat (d : Nat) (hd : d < 10) :
    (Char.ofNat (48 + d)).toNat = 48 + d := by
  have hv : (48 + d).isValidChar := Or.inl (by omega)
  rw [Char.ofNat, dif_pos hv]
  rfl

theorem isDigit_char_digit (d : Nat) (hd : d < 10) :
    isDigit (Char.ofNat (48 + d)) = true := by
  rw [isDigit, Bool.and_eq_true, decide_eq_true_eq, decide_eq_true_eq]
  constructor
  · show '0'.toNat ≤ (Char.ofNat (48 + d)).toNat
    rw [char_digit_toNat d hd]
    show 48 ≤ 48 + d
    omega
  · show (Char.ofNat (48 + d)).toNat ≤ '9'.toNat
    rw [char_digit_toNat d hd]
    show 48 + d ≤ 57
    omega

theorem natDigitsGo_spec (fuel : Nat) :
    ∀ n, n < fuel →
      digitsVal (natDigitsGo fuel n) = n ∧
      (natDigitsGo fuel n).all isDigit = true ∧
      natDigitsGo fuel n ≠ [] := by
  induction fuel with
  | zero => intro n h; omega
  | succ fuel ih =>
    intro n h
    rw [natDigitsGo]
    by_cases h10 : n < 10
    · rw [if_pos h10]
      refine ⟨?_, ?_, by simp⟩
      · show digitsVal [Char.ofNat (48 + n)] = n
        rw [digitsVal, List.foldl_cons, List.foldl_nil, char_digit_toNat n h10]
        omega
      · simp [isDigit_char_digit n h10]
    · rw [if_neg h10]
      have hrec := ih (n / 10) (by omega)
      refine ⟨?_, ?_, by simp⟩
      · rw [digitsVal_append, hrec.1]
        show n / 10 * 10 ^ ([Char.ofNat (48 + n % 10)].length) +
          digitsVal [Char.ofNat (48 + n % 10)] = n
        rw [digitsVal, List.foldl_cons, List.foldl_nil, char_digit_toNat (n % 10) (by omega)]
        simp only [List.length_cons, List.length_nil, Nat.pow_one]
        omega
      · rw [List.all_append, hrec.2.1]
        simp [isDigit_char_digit (n % 10) (by omega)]

theorem natDigits_val (n : Nat) : digitsVal (natDigits n) = n :=
  (natDigitsGo_spec (n + 1) n (by omega)).1

theorem natDigits_all_digits (n : Nat) : (natDigits n).all isDigit = true :=
  (natDigitsGo_spec (n + 1) n (by omega)).2.1

theorem natDigits_ne_nil (n : Nat) : natDigits n ≠ [] :=
  (natDigitsGo_spec (n + 1) n (by omega)).2.2

theorem decNormGo_fix (m : Int) (e : Nat) (h : e = 0 ∨ m % 10 ≠ 0) :
    decNormGo m e = (m, e) := by
  match e with
  | 0 => rfl
  | e + 1 =>
    rcases h with h | h
    · omega
    · rw [decNormGo, if_neg h]

theorem decNormGo_norm (e : Nat) : ∀ m : Int,
    (decNormGo m e).2 = 0 ∨ (decNormGo m e).1 % 10 ≠ 0 := by
  induction e with
  | zero => intro m; exact Or.inl rfl
  | succ e ih =>
    intro m
    rw [decNormGo]
    by_cases h : m % 10 = 0
    · rw [if_pos h]
      exact ih (m / 10)
    · rw [if_neg h]
      exact Or.inr h

theorem decNormGo_nonneg (e : Nat) : ∀ m : Int, 0 ≤ m → 0 ≤ (decNormGo m e).1 := by
  induction e with
  | zero => intro m hm; exact hm
  | succ e ih =>
    intro m hm
    rw [decNormGo]
    by_cases h : m % 10 = 0
    · rw [if_pos h]
      exact ih (m / 10) (Int.ediv_nonneg hm (by omega))
    · rw [if_neg h]
      exact hm

theorem isDigit_not_special (c : Char) (h : isDigit c = true) :
    c ≠ '+' ∧ c ≠ '-' ∧ c ≠ '.' ∧ c ≠ 'e' ∧ c ≠ 'E' := by
  rw [isDigit, Bool.and_eq_true, decide_eq_true_eq, decide_eq_true_eq] at h
  refine ⟨?_, ?_, ?_, ?_, ?_⟩
  all_goals intro he; subst he
  all_goals revert h; decide

theorem readSign_no_sign (c : Char) (r : List Char) (h1 : c ≠ '+') (h2 : c ≠ '-') :
    readSign (c :: r) = (false, c :: r) := by
  rw [readSign]
  rw [if_neg h2, if_neg h1]

theorem takeWhile_all_append (p : Char → Bool) (l : List Char) (c : Char) (r : List Char)
    (hl : l.all p = true) (hc : p c = false) :
    (l ++ c :: r).takeWhile p = l ∧ (l ++ c :: r).dropWhile p = c :: r := by
  induction l with
  | nil =>
    constructor
    · simp [List.takeWhile_cons, hc]
    · simp [List.dropWhile_cons, hc]
  | cons a l ih =>
    rw [List.all_cons, Bool.and_eq_true] at hl
    obtain ⟨h1, h2⟩ := ih hl.2
    constructor
    · rw [List.cons_append, List.takeWhile_cons, hl.1]
      simp only [if_pos, h1]
    · rw [List.cons_append, List.dropWhile_cons, hl.1]
      simp only [if_pos, h2]

theorem takeWhile_all_self (p : Char → Bool) (l : List Char) (hl : l.all p = true) :
    l.takeWhile p = l ∧ l.dropWhile p = [] := by
  induction l with
  | nil => exact ⟨rfl, rfl⟩
  | cons a l ih =>
    rw [List.all_cons, Bool.and_eq_true] at hl
    obtain ⟨h1, h2⟩ := ih hl.2
    constructor
    · rw [List.takeWhile_cons, hl.1]
      simp only [if_pos, h1]
    · rw [List.dropWhile_cons, hl.1]
      simp only [if_pos, h2]

theorem jsParseFloat_digits (ip : List Char) (hip : ip.all isDigit = true)
    (hne : ip ≠ []) :
    jsParseFloat ip = some (decNorm (Int.ofNat (digitsVal ip)) 0) := by
  match ip, hne with
  | c :: ip', _ =>
    have hipc : (c :: ip').all isDigit = true := hip
    rw [List.all_cons, Bool.and_eq_true] at hip
    obtain ⟨hd1, hd2, _, _, _⟩ := isDigit_not_special c hip.1
    obtain ⟨ht, hdw⟩ := takeWhile_all_self isDigit (c :: ip') hipc
    rw [jsParseFloat, readSign_no_sign c ip' hd1 hd2]
    simp only [ht, hdw, List.isEmpty_nil, Bool.and_false, List.isEmpty_cons, Bool.false_and,
      Bool.false_eq_true, if_false, List.length_nil, Nat.pow_zero, Nat.mul_one]
    norm_num [tenPow, digitsVal]

theorem jsParseFloat_digits_dot (ip fp : List Char) (hip : ip.all isDigit = true)
    (hipne : ip ≠ []) (hfp : fp.all isDigit = true) (hfpne : fp ≠ []) :
    jsParseFloat (ip ++ '.' :: fp) =
      some (decNorm (Int.ofNat (digitsVal ip * 10 ^ fp.length + digitsVal fp)) fp.length) := by
  match ip, hipne with
  | c :: ip', _ =>
    have hipc : (c :: ip').all isDigit = true := hip
    rw [List.all_cons, Bool.and_eq_true] at hip
    obtain ⟨hd1, hd2, _, _, _⟩ := isDigit_not_special c hip.1
    obtain ⟨ht, hdw⟩ := takeWhile_all_append isDigit (c :: ip') '.' fp hipc (by decide)
    obtain ⟨ht2, hdw2⟩ := takeWhile_all_self isDigit fp hfp
    have hfpempty : fp.isEmpty = false := by
      cases fp with
      | nil => exact absurd rfl hfpne
      | cons a b => rfl
    have hstep : readSign ((c :: ip') ++ '.' :: fp) = (false, (c :: ip') ++ '.' :: fp) := by
      rw [List.cons_append]
      exact readSign_no_sign c (ip' ++ '.' :: fp) hd1 hd2
    rw [jsParseFloat, hstep]
    simp only [ht, hdw, ht2, hdw2, List.isEmpty_cons, Bool.false_and, Bool.false_eq_true,
      if_false, hfpempty, Bool.and_false]
    norm_num [tenPow]

theorem jsParseFloat_dsOK (d : List Char) (h : dsOK d = true) :
    ∃ q : DecQ, jsParseFloat d = some q ∧ 0 ≤ q.m ∧ (q.e = 0 ∨ q.m % 10 ≠ 0) := by
  simp only [dsOK] at h
  rw [Bool.and_eq_true] at h
  obtain ⟨hipne0, hrest0⟩ := h
  have hipne : d.takeWhile isDigit ≠ [] := by
    intro hcon
    rw [hcon] at hipne0
    simp at hipne0
  have hdecomp : d = d.takeWhile isDigit ++ d.dropWhile isDigit :=
    (List.takeWhile_append_dropWhile isDigit d).symm
  have hipdig : (d.takeWhile isDigit).all isDigit = true := by
    rw [List.all_eq_true]
    intro x hx
    exact List.mem_takeWhile_imp hx
  rw [Bool.or_eq_true] at hrest0
  rcases hrest0 with hnil0 | hr
  · have hnil : d.dropWhile isDigit = [] := by
      cases hx : d.dropWhile isDigit with
      | nil => rfl
      | cons a b =>
        rw [hx] at hnil0
        simp at hnil0
    rw [hnil, List.append_nil] at hdecomp
    rw [← hdecomp] at hipdig
    have hne : d ≠ [] := by
      intro hcon
      rw [hcon] at hdecomp
      have : d.takeWhile isDigit = [] := by
        cases hx : d.takeWhile isDigit with
        | nil => rfl
        | cons a b =>
          rw [hcon] at hx
          simp at hx
      exact hipne this
    rw [jsParseFloat_digits d hipdig hne]
    exact ⟨_, rfl, decNormGo_nonneg 0 _ (Int.ofNat_nonneg _), decNormGo_norm 0 _⟩
  · rw [Bool.and_eq_true, Bool.and_eq_true] at hr
    obtain ⟨⟨hhead, htne⟩, htall⟩ := hr
    have hhead2 : (d.dropWhile isDigit).head? = some '.' := by simpa using hhead
    have htne2 : (d.dropWhile isDigit).tail ≠ [] := by
      intro hcon
      rw [hcon] at htne
      simp at htne
    have hdw : '.' :: (d.dropWhile isDigit).tail = d.dropWhile isDigit :=
      List.cons_head?_tail hhead2
    rw [← hdw] at hdecomp
    rw [hdecomp, jsParseFloat_digits_dot _ _ hipdig hipne htall htne2]
    exact ⟨_, rfl, decNormGo_nonneg _ _ (Int.ofNat_nonneg _), decNormGo_norm _ _⟩

theorem printNum_eq_parse (q : DecQ) (hm : 0 ≤ q.m) (hnorm : q.e = 0 ∨ q.m % 10 ≠ 0) :
    jsParseFloat (printNum q) = some q ∧ dsOK (printNum q) = true := by
  have hsign : ¬ q.m < 0 := by omega
  have hcast : Int.ofNat q.m.natAbs = q.m := Int.natAbs_of_nonneg hm
  by_cases he : q.e = 0
  · have hout : printNum q = natDigits q.m.natAbs := by
      rw [printNum, he, if_pos rfl, if_neg hsign, List.nil_append]
    constructor
    · rw [hout, jsParseFloat_digits _ (natDigits_all_digits _) (natDigits_ne_nil _),
        natDigits_val, hcast]
      show some (decNorm q.m 0) = some q
      show some (⟨(decNormGo q.m 0).1, (decNormGo q.m 0).2⟩ : DecQ) = some q
      show some (⟨q.m, 0⟩ : DecQ) = some q
      rw [← he]
    · rw [hout, dsOK]
      obtain ⟨ht, hdw⟩ := takeWhile_all_self isDigit _ (natDigits_all_digits q.m.natAbs)
      simp only [ht, hdw, List.isEmpty_nil, Bool.or_true, Bool.and_true]
      simp [List.isEmpty_iff, natDigits_ne_nil]
  · have hm10 : q.m % 10 ≠ 0 := by
      rcases hnorm with h | h
      · exact absurd h he
      · exact h
    set n := q.m.natAbs with hn
    set ds := List.replicate (q.e + 1 - (natDigits n).length) '0' ++ natDigits n with hds
    have hdsall : ds.all isDigit = true := by
      rw [hds, List.all_append, Bool.and_eq_true]
      refine ⟨?_, natDigits_all_digits n⟩
      rw [List.all_eq_true]
      intro x hx
      rw [List.eq_of_mem_replicate hx]
      decide
    have hdslen : q.e + 1 ≤ ds.length := by
      rw [hds, List.length_append, List.length_replicate]
      omega
    have hdsval : digitsVal ds = n := by
      rw [hds, digitsVal_replicate_zero, natDigits_val]
    have hout : printNum q =
        ds.take (ds.length - q.e) ++ '.' :: ds.drop (ds.length - q.e) := by
      simp only [printNum, if_neg he, if_neg hsign, List.nil_append, hds]
    have hiptake : (ds.take (ds.length - q.e)).all isDigit = true := by
      rw [List.all_eq_true]
      intro x hx
      exact List.all_eq_true.mp hdsall x (List.mem_of_mem_take hx)
    have hipne : ds.take (ds.length - q.e) ≠ [] := by
      have hlt : (ds.take (ds.length - q.e)).length = ds.length - q.e := by
        rw [List.length_take]
        omega
      intro hcon
      rw [hcon] at hlt
      simp only [List.length_nil] at hlt
      omega
    have hfpdig : (ds.drop (ds.length - q.e)).all isDigit = true := by
      rw [List.all_eq_true]
      intro x hx
      exact List.all_eq_true.mp hdsall x (List.mem_of_mem_drop hx)
    have hfplen : (ds.drop (ds.length - q.e)).length = q.e := by
      rw [List.length_drop]
      omega
    have hfpne : ds.drop (ds.length - q.e) ≠ [] := by
      intro hcon
      rw [hcon] at hfplen
      simp only [List.length_nil] at hfplen
      omega
    constructor
    · rw [hout, jsParseFloat_digits_dot _ _ hiptake hipne hfpdig hfpne, hfplen]
      have hval : digitsVal (ds.take (ds.length - q.e)) * 10 ^ q.e +
          digitsVal (ds.drop (ds.length - q.e)) = n := by
        have happ := digitsVal_append (ds.take (ds.length - q.e)) (ds.drop (ds.length - q.e))
        rw [List.take_append_drop, hfplen] at happ
        rw [← happ, hdsval]
      rw [hval, hcast]
      show some (decNorm q.m q.e) = some q
      rw [decNorm, decNormGo_fix q.m q.e (Or.inr hm10)]
    · obtain ⟨ht, hdw⟩ := takeWhile_all_append isDigit (ds.take (ds.length - q.e)) '.'
        (ds.drop (ds.length - q.e)) hiptake (by decide)
      have h1 : (ds.take (ds.length - q.e)).isEmpty = false := by
        cases hx : ds.take (ds.length - q.e) with
        | nil => exact absurd hx hipne
        | cons a b => rfl
      have h2 : (ds.drop (ds.length - q.e)).isEmpty = false := by
        cases hx : ds.drop (ds.length - q.e) with
        | nil => exact absurd hx hfpne
        | cons a b => rfl
      rw [hout]
      simp only [dsOK, ht, hdw]
      simp [h1, h2, hfpdig]
/-! ### Loop-level steps of the token scanner (claim C1) -/

theorem wsChar_not_printable (c : Char) (h : wsChar c = true) : printable c = false := by
  rw [wsChar] at h
  cases hx : printable c with
  | false => rfl
  | true => rw [hx] at h; simp at h

theorem nmCharOK_spec (c : Char) (h : nmCharOK c = true) :
    c ≠ ',' ∧ c ≠ ')' ∧ c ≠ ':' ∧ c ≠ '[' := by
  rw [nmCharOK] at h
  simp only [Bool.not_eq_eq_eq_not, Bool.not_true, Bool.or_eq_false_iff,
    decide_eq_false_iff_not] at h
  exact ⟨h.1.1.1, h.1.1.2, h.1.2, h.2⟩

theorem wsChar_nmCharOK (c : Char) (h : wsChar c = true) : nmCharOK c = true := by
  have hp := wsChar_not_printable c h
  rw [nmCharOK]
  simp only [Bool.not_eq_eq_eq_not, Bool.not_true, Bool.or_eq_false_iff,
    decide_eq_false_iff_not]
  refine ⟨⟨⟨?_, ?_⟩, ?_⟩, ?_⟩
  all_goals intro he; subst he; revert hp; decide

theorem wsChar_not_numChar (c : Char) (h : wsChar c = true) : numChar c = false := by
  have hp := wsChar_not_printable c h
  cases hx : numChar c with
  | false => rfl
  | true =>
    rw [numChar] at hx
    simp only [Bool.or_eq_true, Bool.and_eq_true, decide_eq_true_eq] at hx
    rw [printable] at hp
    simp only [Bool.and_eq_false_iff, decide_eq_false_iff_not] at hp
    rcases hx with ((((⟨ha, hb⟩ | he) | he) | he) | he) | he
    · rcases hp with hp | hp
      · exact absurd (le_trans (by decide : ('!' : Char) ≤ '0') ha) hp
      · exact absurd (le_trans hb (by decide : ('9' : Char) ≤ '~')) hp
    · subst he; rcases hp with hp | hp
      · exact absurd (by decide) hp
      · exact absurd (by decide) hp
    · subst he; rcases hp with hp | hp
      · exact absurd (by decide) hp
      · exact absurd (by decide) hp
    · subst he; rcases hp with hp | hp
      · exact absurd (by decide) hp
      · exact absurd (by decide) hp
    · subst he; rcases hp with hp | hp
      · exact absurd (by decide) hp
      · exact absurd (by decide) hp
    · subst he; rcases hp with hp | hp
      · exact absurd (by decide) hp
      · exact absurd (by decide) hp

theorem isDigit_numChar (c : Char) (h : isDigit c = true) : numChar c = true := by
  rw [isDigit, Bool.and_eq_true] at h
  rw [numChar, h.1, h.2]
  rfl

theorem dsOK_all_numChar (d : List Char) (h : dsOK d = true) : d.all numChar = true := by
  simp only [dsOK] at h
  rw [Bool.and_eq_true] at h
  obtain ⟨_, hrest⟩ := h
  have hdecomp : d = d.takeWhile isDigit ++ d.dropWhile isDigit :=
    (List.takeWhile_append_dropWhile isDigit d).symm
  have hipnum : (d.takeWhile isDigit).all numChar = true := by
    rw [List.all_eq_true]
    intro x hx
    exact isDigit_numChar x (List.mem_takeWhile_imp hx)
  rw [Bool.or_eq_true] at hrest
  rcases hrest with hnil | hr
  · have hdw : d.dropWhile isDigit = [] := by
      cases hx : d.dropWhile isDigit with
      | nil => rfl
      | cons a b => rw [hx] at hnil; simp at hnil
    rw [hdecomp, hdw, List.append_nil]
    exact hipnum
  · rw [Bool.and_eq_true, Bool.and_eq_true] at hr
    obtain ⟨⟨hhead, _⟩, htall⟩ := hr
    have hhead2 : (d.dropWhile isDigit).head? = some '.' := by simpa using hhead
    have hdw : '.' :: (d.dropWhile isDigit).tail = d.dropWhile isDigit :=
      List.cons_head?_tail hhead2
    rw [hdecomp, ← hdw, List.all_append, hipnum, List.all_cons]
    simp only [Bool.true_and]
    rw [Bool.and_eq_true]
    constructor
    · decide
    · rw [List.all_eq_true]
      intro x hx
      exact isDigit_numChar x (List.all_eq_true.mp htall x hx)

theorem numOff_block (dsl : List Char) (rest : List Char)
    (hd : dsl.all numChar = true)
    (hr : rest = [] ∨ ∃ c r, rest = c :: r ∧ numChar c = false) :
    numOff (dsl ++ rest) = dsl.length := by
  induction dsl with
  | nil =>
    rcases hr with hnil | ⟨c, r, hcons, hc⟩
    · rw [hnil]
      rfl
    · rw [hcons, List.nil_append, numOff, hc]
      rfl
  | cons a l ih =>
    rw [List.all_cons, Bool.and_eq_true] at hd
    rw [List.cons_append, numOff, hd.1, ih hd.2]
    simp

theorem metaOff_block (m : List Char) (r : List Char)
    (hm : m.all (fun c => !(c = ']')) = true) :
    metaOff (m ++ ']' :: r) = m.length := by
  induction m with
  | nil =>
    rw [List.nil_append, metaOff]
    rfl
  | cons a l ih =>
    rw [List.all_cons, Bool.and_eq_true] at hm
    have ha : a ≠ ']' := by simpa using hm.1
    rw [List.cons_append, metaOff, if_neg ha, ih hm.2, List.length_cons]

theorem addLoop_congr2 (s : List Char) (f : Nat) (st : AddState)
    (hf : s.length - st.i < f) :
    addGo s f st = addLoop s st :=
  addGo_congr s f (s.length + 1) st hf (by omega)

theorem addLoop_stop_end (s : List Char) (st : AddState) (h : ¬ st.i < s.length) :
    addLoop s st = st := by
  rw [addLoop, addGo, dif_neg h]

theorem addLoop_stop_char (s : List Char) (st : AddState) (h : st.i < s.length)
    (hc : s[st.i] = ',' ∨ s[st.i] = ')') :
    addLoop s st = st := by
  rw [addLoop, addGo, dif_pos h, if_pos hc]

theorem addLoop_step_plain (s : List Char) (i e0 : Nat) (m0 : List Char) (d0 : JsNum)
    (er0 : Nat) (h : i < s.length)
    (hc1 : ¬(s[i] = ',' ∨ s[i] = ')')) (hc2 : ¬ s[i] = '[') (hc3 : ¬ s[i] = ':') :
    addLoop s ⟨i, e0, m0, d0, er0⟩ = addLoop s ⟨i + 1, e0, m0, d0, er0⟩ := by
  rw [addLoop, addGo, dif_pos h, if_neg hc1, if_neg hc2, if_neg hc3]
  exact addLoop_congr2 s s.length _ (by simp only []; omega)

theorem addLoop_step_colon (s : List Char) (i e0 : Nat) (m0 : List Char) (d0 : JsNum)
    (er0 : Nat) (h : i < s.length)
    (hc1 : ¬(s[i] = ',' ∨ s[i] = ')')) (hc3 : s[i] = ':') :
    addLoop s ⟨i, e0, m0, d0, er0⟩ =
      addLoop s ⟨scanNum s (i + 1), updE e0 i, m0,
        jsParseFloat (jsSubstr s (i + 1) (scanNum s (i + 1) - i - 1)), er0⟩ := by
  have hc2 : ¬ s[i] = '[' := by rw [hc3]; decide
  rw [addLoop, addGo, dif_pos h, if_neg hc1, if_neg hc2, if_pos hc3]
  have := scanNum_ge s (i + 1)
  exact addLoop_congr2 s s.length _ (by simp only []; omega)

theorem addLoop_step_meta (s : List Char) (i e0 : Nat) (m0 : List Char) (d0 : JsNum)
    (er0 : Nat) (h : i < s.length)
    (hc1 : ¬(s[i] = ',' ∨ s[i] = ')')) (hc2 : s[i] = '[')
    (hlt : ¬ scanMeta s (i + 1) = s.length) :
    addLoop s ⟨i, e0, m0, d0, er0⟩ =
      addLoop s ⟨scanMeta s (i + 1) + 1, updE e0 i,
        jsSubstr s i (scanMeta s (i + 1) - i + 1), d0, er0⟩ := by
  rw [addLoop, addGo, dif_pos h, if_neg hc1, if_pos hc2, if_neg hlt]
  have := scanMeta_ge s (i + 1)
  exact addLoop_congr2 s s.length _ (by simp only []; omega)

theorem getElem_of_append (s pre rest : List Char) (c : Char)
    (hs : s = pre ++ c :: rest) (h : pre.length < s.length) :
    s[pre.length] = c := by
  subst hs
  exact getElem_at_append pre c rest h

theorem addLoop_plain_block (cs : List Char) :
    ∀ (pre rest s : List Char) (e0 : Nat) (m0 : List Char) (d0 : JsNum) (er0 : Nat),
      s = pre ++ cs ++ rest → cs.all nmCharOK = true →
      addLoop s ⟨pre.length, e0, m0, d0, er0⟩ =
        addLoop s ⟨pre.length + cs.length, e0, m0, d0, er0⟩ := by
  induction cs with
  | nil =>
    intro pre rest s e0 m0 d0 er0 hs hcs
    rfl
  | cons c cs ih =>
    intro pre rest s e0 m0 d0 er0 hs hcs
    rw [List.all_cons, Bool.and_eq_true] at hcs
    obtain ⟨hne1, hne2, hne3, hne4⟩ := nmCharOK_spec c hcs.1
    have hseq : s = pre ++ c :: (cs ++ rest) := by rw [hs]; simp
    have hlen : pre.length < s.length := by
      rw [hseq]
      simp only [List.length_append, List.length_cons]
      omega
    have hat : s[pre.length] = c := getElem_of_append s pre (cs ++ rest) c hseq hlen
    rw [addLoop_step_plain s pre.length e0 m0 d0 er0 hlen
      (by rw [hat]; intro hx; rcases hx with hx | hx; exact hne1 hx; exact hne2 hx)
      (by rw [hat]; exact hne4) (by rw [hat]; exact hne3)]
    have hrec := ih (pre ++ [c]) rest s e0 m0 d0 er0 (by rw [hs]; simp) hcs.2
    rw [List.length_append] at hrec
    simp only [List.length_cons, List.length_nil] at hrec
    rw [show pre.length + 1 = pre.length + 1 + 0 by omega] at hrec
    simp only [Nat.add_zero] at hrec
    rw [hrec, List.length_cons]
    rw [show pre.length + 1 + cs.length = pre.length + (cs.length + 1) by omega]
/-! ### The token scan on a rendered token (claim C1) -/

theorem jsSubstr_spec (A mid B : List Char) :
    jsSubstr (A ++ (mid ++ B)) A.length mid.length = mid := by
  rw [jsSubstr, List.drop_left, List.take_left]

theorem addLoop_ws_stop (s pre2 ws post : List Char) (e0 : Nat) (m0 : List Char)
    (d0 : JsNum) (er0 : Nat)
    (hs : s = pre2 ++ ws ++ post) (hws : ws.all wsChar = true)
    (hpost : post = [] ∨ post.head? = some ',' ∨ post.head? = some ')') :
    addLoop s ⟨pre2.length, e0, m0, d0, er0⟩ =
      ⟨pre2.length + ws.length, e0, m0, d0, er0⟩ := by
  rw [addLoop_plain_block ws pre2 post s e0 m0 d0 er0 hs
    (by rw [List.all_eq_true]; intro x hx;
        exact wsChar_nmCharOK x (List.all_eq_true.mp hws x hx))]
  rcases hpost with hnil | hc
  · refine addLoop_stop_end s _ ?_
    show ¬ pre2.length + ws.length < s.length
    rw [hs, hnil]
    simp only [List.append_nil, List.length_append]
    omega
  · obtain ⟨c, post', hpost', hc⟩ : ∃ c post', post = c :: post' ∧ (c = ',' ∨ c = ')') := by
      rcases hc with hc | hc
      · cases hx : post with
        | nil => rw [hx] at hc; simp at hc
        | cons a b =>
          rw [hx] at hc
          simp only [List.head?_cons, Option.some.injEq] at hc
          exact ⟨a, b, rfl, Or.inl hc⟩
      · cases hx : post with
        | nil => rw [hx] at hc; simp at hc
        | cons a b =>
          rw [hx] at hc
          simp only [List.head?_cons, Option.some.injEq] at hc
          exact ⟨a, b, rfl, Or.inr hc⟩
    have hseq : s = (pre2 ++ ws) ++ c :: post' := by rw [hs, hpost']
    have hlenA : (pre2 ++ ws).length < s.length := by
      rw [hseq]
      simp only [List.length_append, List.length_cons]
      omega
    have hlen2 : pre2.length + ws.length < s.length := by
      rw [List.length_append] at hlenA
      exact hlenA
    have hat : s[(pre2 ++ ws).length] = c := getElem_of_append s (pre2 ++ ws) post' c hseq hlenA
    have hat2 : s[pre2.length + ws.length] = c := by
      simp only [List.length_append] at hat
      exact hat
    refine addLoop_stop_char s _ hlen2 ?_
    show s[pre2.length + ws.length] = ',' ∨ s[pre2.length + ws.length] = ')'
    rw [hat2]
    exact hc

theorem addLoop_colon_stage (s pre2 dsl rest : List Char) (e0 er0 : Nat) (m0 : List Char)
    (d0 : JsNum)
    (hs : s = pre2 ++ ':' :: (dsl ++ rest)) (hdsl : dsl.all numChar = true)
    (hrest : rest = [] ∨ ∃ c r, rest = c :: r ∧ numChar c = false) :
    addLoop s ⟨pre2.length, e0, m0, d0, er0⟩ =
      addLoop s ⟨pre2.length + 1 + dsl.length, updE e0 pre2.length, m0,
        jsParseFloat dsl, er0⟩ := by
  have hlen : pre2.length < s.length := by
    rw [hs]
    simp only [List.length_append, List.length_cons]
    omega
  have hat : s[pre2.length] = ':' := getElem_of_append s pre2 (dsl ++ rest) ':' hs hlen
  have hdrop : s.drop (pre2.length + 1) = dsl ++ rest := by
    have hseq : s = (pre2 ++ [':']) ++ (dsl ++ rest) := by rw [hs]; simp
    rw [hseq, show pre2.length + 1 = (pre2 ++ [':']).length by simp, List.drop_left]
  have hscan : scanNum s (pre2.length + 1) = pre2.length + 1 + dsl.length := by
    rw [scanNum, hdrop, numOff_block dsl rest hdsl hrest]
  have hsubstr : jsSubstr s (pre2.length + 1) (scanNum s (pre2.length + 1) -
      pre2.length - 1) = dsl := by
    rw [hscan, show pre2.length + 1 + dsl.length - pre2.length - 1 = dsl.length by omega]
    have hseq : s = (pre2 ++ [':']) ++ (dsl ++ rest) := by rw [hs]; simp
    rw [hseq, show pre2.length + 1 = (pre2 ++ [':']).length by simp]
    exact jsSubstr_spec (pre2 ++ [':']) dsl rest
  rw [addLoop_step_colon s pre2.length e0 m0 d0 er0 hlen
    (by rw [hat]; decide) hat, hsubstr, hscan]

theorem addLoop_meta_stage (s pre2 m rest : List Char) (e0 er0 : Nat) (m0 : List Char)
    (d0 : JsNum)
    (hs : s = pre2 ++ '[' :: (m ++ ']' :: rest))
    (hm : m.all (fun c => !(c = ']')) = true) :
    addLoop s ⟨pre2.length, e0, m0, d0, er0⟩ =
      addLoop s ⟨pre2.length + m.length + 2, updE e0 pre2.length,
        '[' :: (m ++ [']']), d0, er0⟩ := by
  have hlen : pre2.length < s.length := by
    rw [hs]
    simp only [List.length_append, List.length_cons]
    omega
  have hat : s[pre2.length] = '[' := getElem_of_append s pre2 (m ++ ']' :: rest) '[' hs hlen
  have hdrop : s.drop (pre2.length + 1) = m ++ ']' :: rest := by
    have hseq : s = (pre2 ++ ['[']) ++ (m ++ ']' :: rest) := by rw [hs]; simp
    rw [hseq, show pre2.length + 1 = (pre2 ++ ['[']).length by simp, List.drop_left]
  have hscan : scanMeta s (pre2.length + 1) = pre2.length + 1 + m.length := by
    rw [scanMeta, hdrop, metaOff_block m rest hm]
  have hslen : s.length = pre2.length + 1 + m.length + 1 + rest.length := by
    rw [hs]
    simp only [List.length_append, List.length_cons]
    omega
  have hsubstr : jsSubstr s pre2.length (scanMeta s (pre2.length + 1) -
      pre2.length + 1) = '[' :: (m ++ [']']) := by
    rw [hscan, show pre2.length + 1 + m.length - pre2.length + 1 = m.length + 2 by omega]
    have hseq : s = pre2 ++ (('[' :: (m ++ [']'])) ++ rest) := by rw [hs]; simp
    rw [hseq]
    have hmlen : m.length + 2 = ('[' :: (m ++ [']'])).length := by simp
    rw [hmlen]
    exact jsSubstr_spec pre2 ('[' :: (m ++ [']'])) rest
  rw [addLoop_step_meta s pre2.length e0 m0 d0 er0 hlen
    (by rw [hat]; decide) hat (by rw [hscan, hslen]; omega), hsubstr, hscan,
    show pre2.length + 1 + m.length + 1 = pre2.length + m.length + 2 by omega]

theorem kn_add_node_of_loop (s : List Char) (l err P E : Nat) (M : List Char) (D : JsNum)
    (h : addLoop s ⟨l, 0, [], jsNeg1, err⟩ = ⟨P, E, M, D, err⟩) :
    kn_add_node s l err =
      (⟨none, [], (if updE E P > l then jsSubstr s l (updE E P - l) else []), M, D,
        false, false⟩, err, P) := by
  simp only [kn_add_node, h]

theorem numrest_of_wspost (ws post : List Char) (hws : ws.all wsChar = true)
    (hpost : post = [] ∨ post.head? = some ',' ∨ post.head? = some ')') :
    ws ++ post = [] ∨ ∃ c r, ws ++ post = c :: r ∧ numChar c = false := by
  cases ws with
  | nil =>
    rw [List.nil_append]
    rcases hpost with h | h | h
    · exact Or.inl h
    · cases post with
      | nil => exact Or.inl rfl
      | cons a b =>
        simp only [List.head?_cons, Option.some.injEq] at h
        subst h
        exact Or.inr ⟨',', b, rfl, by decide⟩
    · cases post with
      | nil => exact Or.inl rfl
      | cons a b =>
        simp only [List.head?_cons, Option.some.injEq] at h
        subst h
        exact Or.inr ⟨')', b, rfl, by decide⟩
  | cons a ws' =>
    rw [List.all_cons, Bool.and_eq_true] at hws
    exact Or.inr ⟨a, ws' ++ post, by simp, wsChar_not_numChar a hws.1⟩

theorem kn_add_node_scan (nm : List Char) (ds ms : Option (List Char))
    (ws pre post s : List Char) (err : Nat)
    (hs : s = pre ++ tokText ⟨nm, ds, ms⟩ ++ ws ++ post)
    (hwf : wfTok ⟨nm, ds, ms⟩ = true)
    (hws : ws.all wsChar = true)
    (hpost : post = [] ∨ post.head? = some ',' ∨ post.head? = some ')')
    (hpre : 0 < pre.length) :
    kn_add_node s pre.length err =
      (tokNodeL ⟨nm, ds, ms⟩ ws, err,
        pre.length + (tokText ⟨nm, ds, ms⟩).length + ws.length) := by
  rw [wfTok, Bool.and_eq_true, Bool.and_eq_true] at hwf
  obtain ⟨⟨hnm, hds⟩, hms⟩ := hwf
  cases ds with
  | none =>
    cases ms with
    | none =>
      have htok : tokText ⟨nm, none, none⟩ = nm := by simp [tokText]
      have h1 := addLoop_plain_block nm pre (ws ++ post) s 0 [] jsNeg1 err
        (by simp [hs, htok]) hnm
      have h2 := addLoop_ws_stop s (pre ++ nm) ws post 0 [] jsNeg1 err
        (by simp [hs, htok]) hws hpost
      rw [List.length_append] at h2
      rw [kn_add_node_of_loop s pre.length err (pre.length + nm.length + ws.length) 0 []
        jsNeg1 (by rw [h1, h2])]
      have hupd : updE 0 (pre.length + nm.length + ws.length) =
          pre.length + nm.length + ws.length := by rw [updE, if_pos rfl]
      rw [hupd]
      have hname : (if pre.length + nm.length + ws.length > pre.length then
          jsSubstr s pre.length (pre.length + nm.length + ws.length - pre.length)
          else []) = nm ++ ws := by
        by_cases hnw : 0 < nm.length + ws.length
        · rw [if_pos (by omega),
            show pre.length + nm.length + ws.length - pre.length = (nm ++ ws).length by
              simp only [List.length_append]; omega]
          have hseq : s = pre ++ ((nm ++ ws) ++ post) := by simp [hs, htok]
          rw [hseq]
          exact jsSubstr_spec pre (nm ++ ws) post
        · have hn0 : nm = [] := by
            cases nm with
            | nil => rfl
            | cons a b => simp at hnw
          have hw0 : ws = [] := by
            cases ws with
            | nil => rfl
            | cons a b => rw [hn0] at hnw; simp at hnw
          rw [hn0, hw0]
          simp
      rw [hname, htok]
      rw [tokNodeL]
      simp only [if_pos, tokMeta, tokD]
      rfl
    | some m =>
      have htok : tokText ⟨nm, none, some m⟩ = nm ++ '[' :: (m ++ [']']) := by
        simp [tokText]
      have hmsall : m.all (fun c => !(c = ']')) = true := hms
      have h1 := addLoop_plain_block nm pre ('[' :: (m ++ ']' :: (ws ++ post))) s 0 [] jsNeg1 err
        (by simp [hs, htok]) hnm
      have h2 := addLoop_meta_stage s (pre ++ nm) m (ws ++ post) 0 err [] jsNeg1
        (by simp [hs, htok]) hmsall
      rw [List.length_append] at h2
      have h3 := addLoop_ws_stop s (pre ++ (nm ++ '[' :: (m ++ [']']))) ws post
        (updE 0 (pre.length + nm.length)) ('[' :: (m ++ [']'])) jsNeg1 err
        (by simp [hs, htok]) hws hpost
      have hlen3 : (pre ++ (nm ++ '[' :: (m ++ [']']))).length =
          pre.length + nm.length + m.length + 2 := by
        simp only [List.length_append, List.length_cons, List.length_nil]
        omega
      rw [hlen3] at h3
      have hupd0 : updE 0 (pre.length + nm.length) = pre.length + nm.length := by
        rw [updE, if_pos rfl]
      rw [hupd0] at h3
      rw [kn_add_node_of_loop s pre.length err
        (pre.length + nm.length + m.length + 2 + ws.length) (pre.length + nm.length)
        ('[' :: (m ++ [']'])) jsNeg1 (by rw [h1, h2, hupd0, h3])]
      have hupd : updE (pre.length + nm.length)
          (pre.length + nm.length + m.length + 2 + ws.length) = pre.length + nm.length := by
        rw [updE, if_neg (by omega)]
      rw [hupd]
      have hname : (if pre.length + nm.length > pre.length then
          jsSubstr s pre.length (pre.length + nm.length - pre.length) else []) = nm := by
        by_cases hn : 0 < nm.length
        · rw [if_pos (by omega), show pre.length + nm.length - pre.length = nm.length by omega]
          have hseq : s = pre ++ (nm ++ ('[' :: (m ++ [']']) ++ ws ++ post)) := by
            simp [hs, htok]
          rw [hseq]
          exact jsSubstr_spec pre nm _
        · have hn0 : nm = [] := by
            cases nm with
            | nil => rfl
            | cons a b => simp at hn
          rw [if_neg (by omega), hn0]
      rw [hname]
      rw [tokNodeL]
      have hcond : ¬((none : Option (List Char)) = none ∧ (some m : Option (List Char)) = none) := by
        intro hx
        exact Option.noConfusion hx.2
      rw [if_neg hcond]
      simp only [tokMeta, tokD, htok, List.append_nil]
      have harith : pre.length + (nm ++ '[' :: (m ++ [']'])).length + ws.length =
          pre.length + nm.length + m.length + 2 + ws.length := by
        simp only [List.length_append, List.length_cons, List.length_nil]
        omega
      rw [harith]
  | some dsl =>
    have hdsl : dsOK dsl = true := hds
    have hdnum : dsl.all numChar = true := dsOK_all_numChar dsl hdsl
    cases ms with
    | none =>
      have htok : tokText ⟨nm, some dsl, none⟩ = nm ++ ':' :: dsl := by simp [tokText]
      have h1 := addLoop_plain_block nm pre (':' :: (dsl ++ ws ++ post)) s 0 [] jsNeg1 err
        (by simp [hs, htok]) hnm
      have h2 := addLoop_colon_stage s (pre ++ nm) dsl (ws ++ post) 0 err [] jsNeg1
        (by simp [hs, htok]) hdnum (numrest_of_wspost ws post hws hpost)
      rw [List.length_append] at h2
      have hupd0 : updE 0 (pre.length + nm.length) = pre.length + nm.length := by
        rw [updE, if_pos rfl]
      rw [hupd0] at h2
      have h3 := addLoop_ws_stop s (pre ++ (nm ++ ':' :: dsl)) ws post
        (pre.length + nm.length) [] (jsParseFloat dsl) err
        (by simp [hs, htok]) hws hpost
      have hlen3 : (pre ++ (nm ++ ':' :: dsl)).length =
          pre.length + nm.length + 1 + dsl.length := by
        simp only [List.length_append, List.length_cons, List.length_nil]
        omega
      rw [hlen3] at h3
      rw [kn_add_node_of_loop s pre.length err
        (pre.length + nm.length + 1 + dsl.length + ws.length) (pre.length + nm.length)
        [] (jsParseFloat dsl) (by
          rw [h1, h2, show pre.length + nm.length + 1 + dsl.length =
            pre.length + nm.length + 1 + dsl.length from rfl, h3])]
      have hupd : updE (pre.length + nm.length)
          (pre.length + nm.length + 1 + dsl.length + ws.length) = pre.length + nm.length := by
        rw [updE, if_neg (by omega)]
      rw [hupd]
      have hname : (if pre.length + nm.length > pre.length then
          jsSubstr s pre.length (pre.length + nm.length - pre.length) else []) = nm := by
        by_cases hn : 0 < nm.length
        · rw [if_pos (by omega), show pre.length + nm.length - pre.length = nm.length by omega]
          have hseq : s = pre ++ (nm ++ (':' :: dsl ++ ws ++ post)) := by
            simp [hs, htok]
          rw [hseq]
          exact jsSubstr_spec pre nm _
        · have hn0 : nm = [] := by
            cases nm with
            | nil => rfl
            | cons a b => simp at hn
          rw [if_neg (by omega), hn0]
      rw [hname]
      rw [tokNodeL]
      have hcond : ¬((some dsl : Option (List Char)) = none ∧
          (none : Option (List Char)) = none) := by
        intro hx
        exact Option.noConfusion hx.1
      rw [if_neg hcond]
      simp only [tokMeta, tokD, htok, List.append_nil]
      have harith : pre.length + (nm ++ ':' :: dsl).length + ws.length =
          pre.length + nm.length + 1 + dsl.length + ws.length := by
        simp only [List.length_append, List.length_cons, List.length_nil]
        omega
      rw [harith]
    | some m =>
      have hmsall : m.all (fun c => !(c = ']')) = true := hms
      have htok : tokText ⟨nm, some dsl, some m⟩ =
          nm ++ ':' :: dsl ++ '[' :: (m ++ [']']) := by simp [tokText]
      have h1 := addLoop_plain_block nm pre
        (':' :: (dsl ++ ('[' :: (m ++ ']' :: (ws ++ post))))) s 0 [] jsNeg1 err
        (by simp [hs, htok]) hnm
      have h2 := addLoop_colon_stage s (pre ++ nm) dsl ('[' :: (m ++ ']' :: (ws ++ post)))
        0 err [] jsNeg1 (by simp [hs, htok]) hdnum
        (Or.inr ⟨'[', m ++ ']' :: (ws ++ post), rfl, by decide⟩)
      rw [List.length_append] at h2
      have hupd0 : updE 0 (pre.length + nm.length) = pre.length + nm.length := by
        rw [updE, if_pos rfl]
      rw [hupd0] at h2
      have h3 := addLoop_meta_stage s (pre ++ (nm ++ ':' :: dsl)) m (ws ++ post)
        (pre.length + nm.length) err [] (jsParseFloat dsl)
        (by simp [hs, htok]) hmsall
      have hlen3 : (pre ++ (nm ++ ':' :: dsl)).length =
          pre.length + nm.length + 1 + dsl.length := by
        simp only [List.length_append, List.length_cons, List.length_nil]
        omega
      rw [hlen3] at h3
      have hupd1 : updE (pre.length + nm.length) (pre.length + nm.length + 1 + dsl.length) =
          pre.length + nm.length := by
        rw [updE, if_neg (by omega)]
      rw [hupd1] at h3
      have h4 := addLoop_ws_stop s (pre ++ (nm ++ ':' :: dsl ++ '[' :: (m ++ [']']))) ws post
        (pre.length + nm.length) ('[' :: (m ++ [']'])) (jsParseFloat dsl) err
        (by simp [hs, htok]) hws hpost
      have hlen4 : (pre ++ (nm ++ ':' :: dsl ++ '[' :: (m ++ [']']))).length =
          pre.length + nm.length + 1 + dsl.length + m.length + 2 := by
        simp only [List.length_append, List.length_cons, List.length_nil]
        omega
      rw [hlen4] at h4
      rw [kn_add_node_of_loop s pre.length err
        (pre.length + nm.length + 1 + dsl.length + m.length + 2 + ws.length)
        (pre.length + nm.length) ('[' :: (m ++ [']'])) (jsParseFloat dsl) (by
          rw [h1, h2, h3,
            show pre.length + nm.length + 1 + dsl.length + m.length + 2 =
              pre.length + nm.length + 1 + dsl.length + m.length + 2 from rfl, h4])]
      have hupd : updE (pre.length + nm.length)
          (pre.length + nm.length + 1 + dsl.length + m.length + 2 + ws.length) =
          pre.length + nm.length := by
        rw [updE, if_neg (by omega)]
      rw [hupd]
      have hname : (if pre.length + nm.length > pre.length then
          jsSubstr s pre.length (pre.length + nm.length - pre.length) else []) = nm := by
        by_cases hn : 0 < nm.length
        · rw [if_pos (by omega), show pre.length + nm.length - pre.length = nm.length by omega]
          have hseq : s = pre ++ (nm ++ (':' :: dsl ++ '[' :: (m ++ [']']) ++ ws ++ post)) := by
            simp [hs, htok]
          rw [hseq]
          exact jsSubstr_spec pre nm _
        · have hn0 : nm = [] := by
            cases nm with
            | nil => rfl
            | cons a b => simp at hn
          rw [if_neg (by omega), hn0]
      rw [hname]
      rw [tokNodeL]
      have hcond : ¬((some dsl : Option (List Char)) = none ∧
          (some m : Option (List Char)) = none) := by
        intro hx
        exact Option.noConfusion hx.1
      rw [if_neg hcond]
      simp only [tokMeta, tokD, htok, List.append_nil]
      have harith : pre.length + (nm ++ ':' :: dsl ++ '[' :: (m ++ [']'])).length + ws.length =
          pre.length + nm.length + 1 + dsl.length + m.length + 2 + ws.length := by
        simp only [List.length_append, List.length_cons, List.length_nil]
        omega
      rw [harith]
